import Mathlib

/-!
Shallow embedding of the SRT subtitle codec, aligner, reference resolver and
example sampler of the Subtitle-Translator repository
(`src/services/srtParser.ts` and `src/services/db.ts`).

Strings are modelled as `List Char`.  JavaScript peculiarities that the
claims depend on are modelled explicitly: `parseInt` accepts a digit prefix
followed by junk, `x || y` treats the empty string as absent, and
`String.prototype.trim` strips whitespace from both ends.
-/

set_option maxHeartbeats 1000000

namespace Srt

/-- Characters treated as whitespace by the embedding of JavaScript string
trimming and of `parseInt`'s leading-whitespace skip (the repository's data
only ever exercises these whitespace characters). -/
def isWS (c : Char) : Bool :=
  c == ' ' || c == '\t' || c == '\n' || c == '\r'

/-- Left half of `String.prototype.trim`. -/
def trimLeft (s : List Char) : List Char := s.dropWhile isWS

/-- Model of `s.trim()`: strip whitespace from both ends. -/
def trim (s : List Char) : List Char :=
  ((trimLeft s).reverse.dropWhile isWS).reverse

/-- `content.replace(/\r\n/g, '\n').replace(/\r/g, '\n')`, fused into one
left-to-right pass. -/
def normalize : List Char → List Char
  | [] => []
  | [c] => if c = '\r' then ['\n'] else [c]
  | c :: d :: rest =>
    if c = '\r' then
      if d = '\n' then '\n' :: normalize rest else '\n' :: normalize (d :: rest)
    else c :: normalize (d :: rest)

/-- Prepend a character to the first piece of a split result. -/
def consHead (c : Char) : List (List Char) → List (List Char)
  | [] => [[c]]
  | p :: ps => (c :: p) :: ps

/-- Model of `s.split('\n')`. -/
def splitLines : List Char → List (List Char)
  | [] => [[]]
  | c :: rest =>
    if c = '\n' then [] :: splitLines rest else consHead c (splitLines rest)

/-- Worker for the split on `/\n\n+/`: `skip` is true immediately after a
two-newline separator has been matched, while the regex is still greedily
consuming additional newlines of the same run. -/
def splitNNGo : Bool → List Char → List (List Char)
  | _, [] => [[]]
  | true, c :: rest =>
    if c = '\n' then splitNNGo true rest else consHead c (splitNNGo false rest)
  | false, [c] => [[c]]
  | false, c :: d :: rest =>
    if c = '\n' ∧ d = '\n' then [] :: splitNNGo true rest
    else consHead c (splitNNGo false (d :: rest))

/-- Model of `content.split(/\n\n+/)`: cut at every maximal run of two or
more newlines. -/
def splitNN (s : List Char) : List (List Char) := splitNNGo false s

/-- Model of `timeLine.split('-->')`. -/
def splitArrow : List Char → List (List Char)
  | [] => [[]]
  | [c] => [[c]]
  | [c, d] => [[c, d]]
  | c :: d :: e :: rest =>
    if c = '-' ∧ d = '-' ∧ e = '>' then [] :: splitArrow rest
    else consHead c (splitArrow (d :: e :: rest))

/-- `'0' ≤ c ≤ '9'`, the digits accepted by radix-10 `parseInt`. -/
def isDigitChar (c : Char) : Bool := '0' ≤ c && c ≤ '9'

def digitVal (c : Char) : Nat := c.toNat - 48

def digitsToNat (ds : List Char) : Nat :=
  ds.foldl (fun a c => a * 10 + digitVal c) 0

/-- Maximal digit prefix, `none` when there is no leading digit. -/
def parseDigits (s : List Char) : Option Nat :=
  let ds := s.takeWhile isDigitChar
  if ds.isEmpty then none else some (digitsToNat ds)

/-- Model of JavaScript `parseInt(s, 10)`; `none` plays the role of `NaN`:
skip leading whitespace, read an optional sign, then the maximal digit
prefix — trailing junk is ignored. -/
def jsParseInt (s : List Char) : Option Int :=
  match s.dropWhile isWS with
  | [] => none
  | c :: rest =>
    if c = '-' then (parseDigits rest).map (fun n => -(Int.ofNat n))
    else if c = '+' then (parseDigits rest).map Int.ofNat
    else (parseDigits (c :: rest)).map Int.ofNat

/-- `lines.join('\n')`. -/
def joinNL : List (List Char) → List Char
  | [] => []
  | l :: ls =>
    match ls with
    | [] => l
    | _ :: _ => l ++ '\n' :: joinNL ls

/-- `blocks.join('\n\n')`. -/
def joinNN : List (List Char) → List Char
  | [] => []
  | l :: ls =>
    match ls with
    | [] => l
    | _ :: _ => l ++ '\n' :: '\n' :: joinNN ls

/-- `SrtBlock` of `src/types.ts`; the optional `translatedText` is an
`Option`, the optional `isFromReference` flag defaults to false. -/
structure SrtBlock where
  id : Int
  startTime : List Char
  endTime : List Char
  originalText : List Char
  translatedText : Option (List Char) := none
  isFromReference : Bool := false
deriving DecidableEq, Inhabited

/-- Body of the per-candidate loop of `parseSRT`: trim, split into lines,
require at least 3 lines, an integer first line and a `-->` in the second
line (`timeLine.includes('-->')` holds exactly when the split has at least
two parts); the remaining lines are rejoined as the text. -/
def parseBlock (block : List Char) : Option SrtBlock :=
  let lines := splitLines (trim block)
  if lines.length < 3 then none
  else
    match jsParseInt (lines.headD []) with
    | none => none
    | some i =>
      let timeLine := lines.getD 1 []
      let parts := splitArrow timeLine
      if parts.length < 2 then none
      else
        some { id := i
               startTime := trim (parts.headD [])
               endTime := trim (parts.getD 1 [])
               originalText := joinNL (lines.drop 2) }

/-- `parseSRT` of `src/services/srtParser.ts`. -/
def parseSRT (content : List Char) : List SrtBlock :=
  (splitNN (normalize content)).filterMap parseBlock

/-- Fueled worker producing the decimal digits of a natural number (any
fuel of at least the digit count is adequate; `natToChars` passes `n`). -/
def natToCharsAux : Nat → Nat → List Char
  | 0, n => [Char.ofNat (48 + n % 10)]
  | fuel + 1, n =>
    if n < 10 then [Char.ofNat (48 + n)]
    else natToCharsAux fuel (n / 10) ++ [Char.ofNat (48 + n % 10)]

/-- Decimal digits of a natural number. -/
def natToChars (n : Nat) : List Char := natToCharsAux n n

/-- The string interpolation `${block.id}` on an integral id. -/
def intToChars (i : Int) : List Char :=
  if i < 0 then '-' :: natToChars i.natAbs else natToChars i.natAbs

/-- JavaScript `x || y` on an optional string: the empty string is falsy. -/
def jsOr (t : Option (List Char)) (d : List Char) : List Char :=
  match t with
  | some s => if s.isEmpty then d else s
  | none => d

/-- The literal ` --> ` placed between the two timestamps. -/
def arrowSep : List Char := [' ', '-', '-', '>', ' ']

/-- The template literal `id\nstart --> end\ntext` of `stringifySRT`,
with `text = block.translatedText || block.originalText`. -/
def renderBlock (b : SrtBlock) : List Char :=
  intToChars b.id ++
    '\n' :: (b.startTime ++ arrowSep ++ b.endTime) ++
      '\n' :: jsOr b.translatedText b.originalText

/-- `stringifySRT` of `src/services/srtParser.ts`. -/
def stringifySRT (blocks : List SrtBlock) : List Char :=
  joinNN (blocks.map renderBlock)

/-- `createReferenceMap` of `src/services/srtParser.ts`; the JavaScript
`Map` is modelled as a lookup function updated by each `map.set`. -/
def createReferenceMap (originalSrt translatedSrt : List Char) :
    List Char → Option (List Char) :=
  let originals := parseSRT originalSrt
  let translations := parseSRT translatedSrt
  let count := min originals.length translations.length
  (List.range count).foldl
    (fun m i =>
      let key := trim (originals.getD i default).originalText
      let value := trim (translations.getD i default).originalText
      if key ≠ [] ∧ value ≠ [] then
        fun k => if k = key then some value else m k
      else m)
    (fun _ => none)

/-- The `translatedMap` of `alignSrts`: a `Map` filled by
`translatedBlocks.forEach(b => translatedMap.set(b.id, b))`, so a later
block with the same id overwrites an earlier one. -/
def mkIdMap (bs : List SrtBlock) : Int → Option SrtBlock :=
  bs.foldl (fun m b => fun k => if k = b.id then some b else m k) (fun _ => none)

/-- Body of `alignSrts`' per-original-block loop: the id lookup, the
positional fallback guarded by the bounds check and the `startTime`
sanity check, and the conditional push. -/
def alignOne (translatedBlocks : List SrtBlock)
    (translatedMap : Int → Option SrtBlock) (index : Nat) (orig : SrtBlock) :
    Option SrtBlock :=
  let trans :=
    match translatedMap orig.id with
    | some t => some t
    | none =>
      match translatedBlocks[index]? with
      | some candidate =>
        if candidate.startTime = orig.startTime then some candidate else none
      | none => none
  trans.map (fun t => { orig with translatedText := some t.originalText })

/-- The indexed `forEach` of `alignSrts`, pushing each successful pair. -/
def alignAll (translatedBlocks : List SrtBlock)
    (translatedMap : Int → Option SrtBlock) :
    Nat → List SrtBlock → List SrtBlock
  | _, [] => []
  | index, o :: os =>
    match alignOne translatedBlocks translatedMap index o with
    | some p => p :: alignAll translatedBlocks translatedMap (index + 1) os
    | none => alignAll translatedBlocks translatedMap (index + 1) os

/-- `alignSrts` of `src/services/srtParser.ts`. -/
def alignSrts (originalContent translatedContent : List Char) : List SrtBlock :=
  let translatedBlocks := parseSRT translatedContent
  alignAll translatedBlocks (mkIdMap translatedBlocks) 0 (parseSRT originalContent)

/-- `a ≤ c ≤ z`: the character class `[a-z]`. -/
def isLowerAZ (c : Char) : Bool := 'a' ≤ c && c ≤ 'z'

/-- `A ≤ c ≤ Z`: the character class `[A-Z]`. -/
def isUpperAZ (c : Char) : Bool := 'A' ≤ c && c ≤ 'Z'

/-- Model of the regex test `/[a-z] [A-Z]/.test(text)`: some lowercase
letter immediately followed by a space and an uppercase letter. -/
def hasProperNoun : List Char → Bool
  | a :: b :: c :: rest =>
    (isLowerAZ a && b == ' ' && isUpperAZ c) || hasProperNoun (b :: c :: rest)
  | _ => false

/-- A style/training example `{original, translated}`. -/
structure StyleExample where
  original : List Char
  translated : List Char
deriving DecidableEq, Inhabited

/-- `s.replace(/\n/g, ' ')`. -/
def flattenNL (s : List Char) : List Char :=
  s.map (fun c => if c = '\n' then ' ' else c)

/-- The loop of `extractStyleExamples`: skip pairs without a (truthy)
translation, include on the proper-noun heuristic or — while fewer than 20
examples are collected — on length, and stop at the hard cap of 40. -/
def extractLoop : List SrtBlock → List StyleExample → List StyleExample
  | [], examples => examples
  | b :: bs, examples =>
    match b.translatedText with
    | none => extractLoop bs examples
    | some tt =>
      if tt.isEmpty then extractLoop bs examples
      else
        let text := trim b.originalText
        let acc :=
          if hasProperNoun text = true ∨ (examples.length < 20 ∧ 20 < text.length) then
            examples ++ [{ original := flattenNL text, translated := flattenNL tt }]
          else examples
        if 40 ≤ acc.length then acc else extractLoop bs acc

/-- `extractStyleExamples` of `src/services/srtParser.ts`. -/
def extractStyleExamples (originalSrt translatedSrt : List Char) : List StyleExample :=
  extractLoop (alignSrts originalSrt translatedSrt) []

/-- `TranslationProject` of `src/types.ts` (the persisted record). -/
structure TranslationProject where
  id : List Char
  fileName : List Char
  createdAt : Int
  blocks : List SrtBlock
  isExternalImport : Bool := false
deriving DecidableEq, Inhabited

/-- Truthiness of an optional string: present and non-empty. -/
def optTruthy : Option (List Char) → Bool
  | some t => !t.isEmpty
  | none => false

/-- The filter `p.isExternalImport || p.blocks.some(b => b.translatedText)`. -/
def projectQualifies (p : TranslationProject) : Bool :=
  p.isExternalImport || p.blocks.any (fun b => optTruthy b.translatedText)

/-- The regex test `s.match(/^\d+$/)`: non-empty and entirely digits. -/
def jsMatchAllDigits (s : List Char) : Bool :=
  !s.isEmpty && s.all isDigitChar

/-- The `validBlocks` filter of `getTrainingExamples`. -/
def validBlock (b : SrtBlock) : Bool :=
  !b.originalText.isEmpty && optTruthy b.translatedText &&
    decide (10 < b.originalText.length) && !jsMatchAllDigits b.originalText

/-- The example pushed for one valid block (`translatedText!` is modelled
with a default that valid blocks never reach). -/
def trainingExampleOf (b : SrtBlock) : StyleExample :=
  { original := flattenNL b.originalText
    translated := flattenNL (b.translatedText.getD []) }

/-- The inner loop of `getTrainingExamples` over one project's first ten
valid blocks; the boolean records the early `return` at the limit. -/
def sampleInner (limit : Nat) :
    List SrtBlock → List StyleExample → (List StyleExample × Bool)
  | [], examples => (examples, false)
  | b :: bs, examples =>
    let acc := examples ++ [trainingExampleOf b]
    if limit ≤ acc.length then (acc, true) else sampleInner limit bs acc

/-- The outer loop of `getTrainingExamples` over the qualifying projects. -/
def sampleLoop (limit : Nat) :
    List TranslationProject → List StyleExample → List StyleExample
  | [], examples => examples
  | p :: ps, examples =>
    match sampleInner limit ((p.blocks.filter validBlock).take 10) examples with
    | (examples2, true) => examples2
    | (examples2, false) => sampleLoop limit ps examples2

/-- One step of the stable newest-first insertion used to model
`projects.sort((a, b) => b.createdAt - a.createdAt)` of `getAllProjects`. -/
def insertByNewest (p : TranslationProject) :
    List TranslationProject → List TranslationProject
  | [] => [p]
  | q :: qs =>
    if p.createdAt ≤ q.createdAt then q :: insertByNewest p qs else p :: q :: qs

/-- The newest-first ordering `getAllProjects` delivers to
`getTrainingExamples` (a stable descending sort on `createdAt`). -/
def sortNewest (ps : List TranslationProject) : List TranslationProject :=
  ps.foldl (fun acc p => insertByNewest p acc) []

/-- `getTrainingExamples` of `src/services/db.ts`, as a pure function of
the stored projects (the IndexedDB retrieval itself is an external
boundary; `getAllProjects` returns the records sorted newest first). -/
def getTrainingExamples (projects : List TranslationProject) (limit : Nat) :
    List StyleExample :=
  sampleLoop limit ((sortNewest projects).filter projectQualifies) []

/-- No two consecutive newlines (no blank-line run inside the string). -/
def noNN : List Char → Bool
  | [] => true
  | c :: rest => !(c == '\n' && rest.head? == some '\n') && noNN rest

/-- No occurrence of the substring `-->`. -/
def arrowFree : List Char → Bool
  | [] => true
  | c :: rest =>
    !(c == '-' && rest.head? == some '-' && rest.tail.head? == some '>') &&
      arrowFree rest

/-- Well-formedness exactly as claim C1 words it: non-empty text fields
containing no blank-line runs, timestamps containing no newlines and no
`-->`. -/
def claimWellFormed (b : SrtBlock) : Bool :=
  (!b.originalText.isEmpty && noNN b.originalText) &&
  (match b.translatedText with
   | some t => !t.isEmpty && noNN t
   | none => true) &&
  (!b.startTime.any (fun c => c == '\n') && arrowFree b.startTime) &&
  (!b.endTime.any (fun c => c == '\n') && arrowFree b.endTime)

/-- The string has no newline and no carriage return. -/
def nlCrFree (s : List Char) : Bool :=
  s.all (fun c => !(c == '\n') && !(c == '\r'))

/-- Neither end of the string is a whitespace character. -/
def noEdgeWS (s : List Char) : Bool :=
  (match s.head? with | some c => !isWS c | none => true) &&
  (match s.getLast? with | some c => !isWS c | none => true)

/-- Strengthened timestamp condition of the amended round-trip claim. -/
def timestampOK (s : List Char) : Bool :=
  nlCrFree s && arrowFree s && noEdgeWS s

/-- Strengthened text condition of the amended round-trip claim. -/
def textOK (t : List Char) : Bool :=
  !t.isEmpty && noNN t && t.all (fun c => !(c == '\r')) &&
  !(t.head? == some '\n') &&
  (match t.getLast? with | some c => !isWS c | none => true)

/-- Well-formedness of the amended round-trip claim. -/
def wfBlock (b : SrtBlock) : Bool :=
  timestampOK b.startTime && timestampOK b.endTime && textOK b.originalText &&
  (match b.translatedText with | some t => textOK t | none => true)

/-- The style example `e` stems from an aligned pair of `L` whose trimmed
original text matches the proper-noun heuristic. -/
def properNounSourced (L : List SrtBlock) (e : StyleExample) : Prop :=
  ∃ b ∈ L, ∃ tt, b.translatedText = some tt ∧
    hasProperNoun (trim b.originalText) = true ∧
    e = { original := flattenNL (trim b.originalText),
          translated := flattenNL tt }

/-- Concrete fixture block for the sampler scenario: a block of project
`c` whose original text is over 10 characters, not purely numeric, and
whose translation is non-empty. -/
def scenarioBlock (c i : Nat) : SrtBlock :=
  { id := Int.ofNat i, startTime := [], endTime := [],
    originalText := "hello world ".toList ++ natToChars c ++ natToChars i,
    translatedText := some ('t' :: (natToChars c ++ natToChars i)) }

/-- Concrete fixture project for the sampler scenario: created at time
`c`, with ten valid blocks. -/
def scenarioProject (c : Nat) : TranslationProject :=
  { id := ['p'], fileName := ['f'], createdAt := Int.ofNat c,
    blocks := (List.range 10).map (scenarioBlock c) }

/-! ## Lemmas about the splitting and joining primitives -/

theorem consHead_ne_nil (c : Char) (ps : List (List Char)) : consHead c ps ≠ [] := by
  cases ps <;> simp [consHead]

theorem splitLines_ne_nil (s : List Char) : splitLines s ≠ [] := by
  induction s with
  | nil => simp [splitLines]
  | cons c rest ih =>
    simp only [splitLines]
    split
    · simp
    · exact consHead_ne_nil c _

theorem joinNL_consHead (c : Char) (ls : List (List Char)) (h : ls ≠ []) :
    joinNL (consHead c ls) = c :: joinNL ls := by
  cases ls with
  | nil => exact absurd rfl h
  | cons p ps =>
    cases ps with
    | nil => simp [consHead, joinNL]
    | cons q qs => simp [consHead, joinNL]

theorem joinNL_splitLines (s : List Char) : joinNL (splitLines s) = s := by
  induction s with
  | nil => simp [splitLines, joinNL]
  | cons c rest ih =>
    simp only [splitLines]
    split
    · rename_i hc
      subst hc
      cases hsl : splitLines rest with
      | nil => exact absurd hsl (splitLines_ne_nil rest)
      | cons p ps =>
        rw [hsl] at ih
        show ([] : List Char) ++ '\n' :: joinNL (p :: ps) = '\n' :: rest
        rw [ih]
        rfl
    · rw [joinNL_consHead c _ (splitLines_ne_nil rest), ih]

theorem splitLines_append_nl (a t : List Char) (h : '\n' ∉ a) :
    splitLines (a ++ '\n' :: t) = a :: splitLines t := by
  induction a with
  | nil => simp [splitLines]
  | cons c a' ih =>
    have hc : c ≠ '\n' := fun e => h (e ▸ List.mem_cons_self c a')
    have hm : '\n' ∉ a' := fun hm => h (List.mem_cons_of_mem c hm)
    simp only [List.cons_append, splitLines]
    rw [if_neg hc]
    simp only [List.append_eq]
    rw [ih hm]
    simp [consHead]

theorem noNN_cons (c : Char) (rest : List Char) :
    noNN (c :: rest) = (!(c == '\n' && rest.head? == some '\n') && noNN rest) := rfl

theorem noNN_cons_elim {c : Char} {rest : List Char} (h : noNN (c :: rest) = true) :
    ¬(c = '\n' ∧ rest.head? = some '\n') ∧ noNN rest = true := by
  rw [noNN_cons] at h
  simp only [Bool.and_eq_true, Bool.not_eq_true', Bool.and_eq_false_iff] at h
  constructor
  · rintro ⟨h1, h2⟩
    rcases h.1 with hb | hb
    · exact absurd hb (by simp [h1])
    · exact absurd hb (by simp [h2])
  · exact h.2

theorem splitNNGo_false_cons (c : Char) (rest : List Char)
    (h : ¬(c = '\n' ∧ rest.head? = some '\n')) :
    splitNNGo false (c :: rest) = consHead c (splitNNGo false rest) := by
  cases rest with
  | nil => rfl
  | cons d rest2 =>
    have hcd : ¬(c = '\n' ∧ d = '\n') := by
      rintro ⟨h1, h2⟩
      exact h ⟨h1, by simp [h2]⟩
    simp only [splitNNGo]
    rw [if_neg hcd]

theorem splitNN_of_noNN (s : List Char) (h : noNN s = true) : splitNN s = [s] := by
  unfold splitNN
  induction s with
  | nil => rfl
  | cons c rest ih =>
    obtain ⟨hcond, hrest⟩ := noNN_cons_elim h
    rw [splitNNGo_false_cons c rest hcond, ih hrest]
    simp [consHead]

theorem splitNNGo_true_eq (t : List Char) (ht : t.head? ≠ some '\n') :
    splitNNGo true t = splitNNGo false t := by
  cases t with
  | nil => rfl
  | cons c rest =>
    have hc : c ≠ '\n' := fun e => ht (by simp [e])
    have h1 : splitNNGo true (c :: rest) = consHead c (splitNNGo false rest) := by
      simp only [splitNNGo]
      rw [if_neg hc]
    rw [h1, splitNNGo_false_cons c rest (fun hp => hc hp.1)]

theorem splitNN_sep (t : List Char) (ht : t.head? ≠ some '\n') :
    splitNNGo false ('\n' :: '\n' :: t) = [] :: splitNNGo false t := by
  have h1 : splitNNGo false ('\n' :: '\n' :: t) = [] :: splitNNGo true t := by
    simp [splitNNGo]
  rw [h1, splitNNGo_true_eq t ht]

theorem splitNN_append_sep (p t : List Char) (hp : noNN p = true)
    (hl : p.getLast? ≠ some '\n') (ht : t.head? ≠ some '\n') :
    splitNN (p ++ '\n' :: '\n' :: t) = p :: splitNN t := by
  unfold splitNN
  induction p with
  | nil => simpa using splitNN_sep t ht
  | cons c p' ih =>
    obtain ⟨hcond, hp'⟩ := noNN_cons_elim hp
    cases p' with
    | nil =>
      have hc : c ≠ '\n' := fun e => hl (by simp [e])
      simp only [List.cons_append, List.nil_append]
      rw [splitNNGo_false_cons c _ (fun hpair => hc hpair.1), splitNN_sep t ht]
      simp [consHead]
    | cons d p'' =>
      have hl' : (d :: p'').getLast? ≠ some '\n' := by
        rw [List.getLast?_cons_cons] at hl
        exact hl
      have hih := ih hp' hl'
      simp only [List.cons_append] at hih ⊢
      have hcc : ¬(c = '\n' ∧ (d :: (p'' ++ '\n' :: '\n' :: t)).head? = some '\n') := by
        rintro ⟨h1, h2⟩
        simp only [List.head?_cons, Option.some.injEq] at h2
        exact hcond ⟨h1, by simp [h2]⟩
      rw [splitNNGo_false_cons c (d :: (p'' ++ '\n' :: '\n' :: t)) hcc, hih]
      simp [consHead]

theorem joinNN_head? (q : List Char) (qs : List (List Char)) (hq : q ≠ []) :
    (joinNN (q :: qs)).head? = q.head? := by
  cases qs with
  | nil => rfl
  | cons r rs =>
    show ((q ++ '\n' :: '\n' :: joinNN (r :: rs))).head? = q.head?
    exact List.head?_append_of_ne_nil _ hq

theorem splitNN_joinNN (ps : List (List Char)) (hne : ps ≠ [])
    (h : ∀ p ∈ ps, p ≠ [] ∧ noNN p = true ∧
      p.head? ≠ some '\n' ∧ p.getLast? ≠ some '\n') :
    splitNN (joinNN ps) = ps := by
  induction ps with
  | nil => exact absurd rfl hne
  | cons p ps ih =>
    cases ps with
    | nil =>
      show splitNN (joinNN [p]) = [p]
      have hp := h p (List.mem_cons_self p [])
      exact splitNN_of_noNN p hp.2.1
    | cons q qs =>
      have hp := h p (List.mem_cons_self p _)
      have hq := h q (List.mem_cons_of_mem p (List.mem_cons_self q qs))
      show splitNN (p ++ '\n' :: '\n' :: joinNN (q :: qs)) = p :: (q :: qs)
      rw [splitNN_append_sep p _ hp.2.1 hp.2.2.2]
      · rw [ih (by simp) (fun r hr => h r (List.mem_cons_of_mem p hr))]
      · rw [joinNN_head? q qs hq.1]
        exact hq.2.2.1

/-! ## Lemmas about the arrow splitter -/

theorem arrowFree_cons_elim {c : Char} {rest : List Char}
    (h : arrowFree (c :: rest) = true) :
    ¬(c = '-' ∧ rest.head? = some '-' ∧ rest.tail.head? = some '>') ∧
      arrowFree rest = true := by
  rw [show arrowFree (c :: rest) =
      (!(c == '-' && rest.head? == some '-' && rest.tail.head? == some '>') &&
        arrowFree rest) from rfl] at h
  simp only [Bool.and_eq_true, Bool.not_eq_true'] at h
  refine ⟨?_, h.2⟩
  rintro ⟨h1, h2, h3⟩
  rw [h1, h2, h3] at h
  simp at h

theorem splitArrow_of_arrowFree (s : List Char) (h : arrowFree s = true) :
    splitArrow s = [s] := by
  induction s with
  | nil => rfl
  | cons c rest ih =>
    obtain ⟨hcond, hrest⟩ := arrowFree_cons_elim h
    cases rest with
    | nil => rfl
    | cons d rest2 =>
      cases rest2 with
      | nil => rfl
      | cons e rest3 =>
        have hc3 : ¬(c = '-' ∧ d = '-' ∧ e = '>') := by
          rintro ⟨h1, h2, h3⟩
          exact hcond ⟨h1, by simp [h2], by simp [h3]⟩
        rw [splitArrow, if_neg hc3, ih hrest]
        simp [consHead]

theorem splitArrow_append_sep (a rest : List Char) (ha : arrowFree a = true) :
    splitArrow (a ++ '-' :: '-' :: '>' :: rest) = a :: splitArrow rest := by
  induction a with
  | nil =>
    simp only [List.nil_append]
    rw [splitArrow, if_pos ⟨rfl, rfl, rfl⟩]
  | cons c a' ih =>
    obtain ⟨hcond, ha'⟩ := arrowFree_cons_elim ha
    have hih := ih ha'
    cases a' with
    | nil =>
      simp only [List.cons_append, List.nil_append] at hih ⊢
      rw [splitArrow, if_neg (by rintro ⟨-, -, h3⟩; simp at h3)]
      rw [hih]
      simp [consHead]
    | cons d a'' =>
      cases a'' with
      | nil =>
        simp only [List.cons_append, List.nil_append] at hih ⊢
        rw [splitArrow, if_neg (by rintro ⟨-, -, h3⟩; simp at h3)]
        rw [hih]
        simp [consHead]
      | cons e a''' =>
        simp only [List.cons_append] at hih ⊢
        rw [splitArrow, if_neg (by
          rintro ⟨h1, h2, h3⟩
          exact hcond ⟨h1, by simp [h2], by simp [h3]⟩)]
        rw [hih]
        simp [consHead]

theorem arrowFree_append_single (s : List Char) (c : Char) (hc : c ≠ '>')
    (h : arrowFree s = true) : arrowFree (s ++ [c]) = true := by
  induction s with
  | nil => simp [arrowFree]
  | cons a s' ih =>
    obtain ⟨hcond, hs'⟩ := arrowFree_cons_elim h
    have tail_ok := ih hs'
    show (!(a == '-' && (s' ++ [c]).head? == some '-' &&
        (s' ++ [c]).tail.head? == some '>') && arrowFree (s' ++ [c])) = true
    rw [tail_ok]
    simp only [Bool.and_true, Bool.not_eq_true', Bool.and_eq_false_iff]
    by_cases ha : a = '-'
    · cases s' with
      | nil => simp
      | cons d s'' =>
        cases s'' with
        | nil => simp [hc]
        | cons e s''' =>
          by_cases hd : d = '-'
          · right
            have he : e ≠ '>' := fun hee => hcond ⟨ha, by simp [hd], by simp [hee]⟩
            simp [he]
          · left
            simp [hd]
    · simp [ha]

theorem arrowFree_cons_space (s : List Char) (h : arrowFree s = true) :
    arrowFree (' ' :: s) = true := by
  show (!(' ' == '-' && s.head? == some '-' && s.tail.head? == some '>') &&
      arrowFree s) = true
  rw [h]
  simp

/-! ## Lemmas about trimming -/

theorem noEdgeWS_elim {s : List Char} (h : noEdgeWS s = true) :
    (∀ c, s.head? = some c → isWS c = false) ∧
      (∀ c, s.getLast? = some c → isWS c = false) := by
  unfold noEdgeWS at h
  simp only [Bool.and_eq_true] at h
  constructor
  · intro c hc
    have := h.1
    rw [hc] at this
    simpa using this
  · intro c hc
    have := h.2
    rw [hc] at this
    simpa using this

theorem dropWhile_eq_self_of_head (p : Char → Bool) (s : List Char)
    (h : ∀ c, s.head? = some c → p c = false) : s.dropWhile p = s := by
  cases s with
  | nil => rfl
  | cons c s' => simp [List.dropWhile_cons, h c rfl]

theorem head?_dropWhile_not (p : Char → Bool) (l : List Char) :
    ∀ c, (l.dropWhile p).head? = some c → p c = false := by
  induction l with
  | nil => intro c hc; simp at hc
  | cons a l' ih =>
    intro c hc
    by_cases ha : p a
    · rw [List.dropWhile_cons, if_pos ha] at hc
      exact ih c hc
    · rw [List.dropWhile_cons, if_neg ha] at hc
      simp only [List.head?_cons, Option.some.injEq] at hc
      rw [← hc]
      simpa using ha

theorem trim_eq_self (s : List Char) (h : noEdgeWS s = true) : trim s = s := by
  obtain ⟨h1, h2⟩ := noEdgeWS_elim h
  unfold trim trimLeft
  rw [dropWhile_eq_self_of_head isWS s h1]
  rw [dropWhile_eq_self_of_head isWS s.reverse
    (fun c hc => h2 c (by rwa [List.head?_reverse] at hc))]
  exact List.reverse_reverse s

theorem trim_append_space (s : List Char) (h : noEdgeWS s = true) :
    trim (s ++ [' ']) = s := by
  obtain ⟨h1, h2⟩ := noEdgeWS_elim h
  cases s with
  | nil => rfl
  | cons c s' =>
    unfold trim trimLeft
    rw [dropWhile_eq_self_of_head isWS ((c :: s') ++ [' '])
      (fun x hx => by
        simp only [List.cons_append, List.head?_cons, Option.some.injEq] at hx
        exact h1 x (by simp [hx]))]
    rw [List.reverse_append]
    show (((' ' :: []) ++ (c :: s').reverse).dropWhile isWS).reverse = c :: s'
    rw [List.cons_append, List.dropWhile_cons, if_pos (by simp [isWS])]
    simp only [List.nil_append]
    rw [dropWhile_eq_self_of_head isWS (c :: s').reverse
      (fun x hx => h2 x (by rwa [List.head?_reverse] at hx))]
    exact List.reverse_reverse _

theorem trim_cons_space (s : List Char) (h : noEdgeWS s = true) :
    trim (' ' :: s) = s := by
  obtain ⟨h1, h2⟩ := noEdgeWS_elim h
  unfold trim trimLeft
  rw [List.dropWhile_cons, if_pos (by simp [isWS])]
  rw [dropWhile_eq_self_of_head isWS s h1]
  rw [dropWhile_eq_self_of_head isWS s.reverse
    (fun c hc => h2 c (by rwa [List.head?_reverse] at hc))]
  exact List.reverse_reverse s

theorem trim_getLast_not_ws (s : List Char) :
    ∀ c, (trim s).getLast? = some c → isWS c = false := by
  intro c hc
  unfold trim at hc
  rw [List.getLast?_reverse] at hc
  exact head?_dropWhile_not isWS _ c hc

/-! ## Lemmas about digit rendering and parseInt -/

theorem digit_char_props (d : Nat) (h : d < 10) :
    isDigitChar (Char.ofNat (48 + d)) = true ∧
    isWS (Char.ofNat (48 + d)) = false ∧
    Char.ofNat (48 + d) ≠ '\n' ∧ Char.ofNat (48 + d) ≠ '\r' ∧
    Char.ofNat (48 + d) ≠ '-' ∧ Char.ofNat (48 + d) ≠ '+' ∧
    digitVal (Char.ofNat (48 + d)) = d := by
  interval_cases d <;> exact (by decide)

theorem natToCharsAux_ne_nil (fuel n : Nat) : natToCharsAux fuel n ≠ [] := by
  cases fuel with
  | zero => simp [natToCharsAux]
  | succ f =>
    rw [natToCharsAux]
    split
    · simp
    · simp

theorem natToChars_ne_nil (n : Nat) : natToChars n ≠ [] :=
  natToCharsAux_ne_nil n n

theorem natToCharsAux_mem (fuel : Nat) :
    ∀ n, ∀ c ∈ natToCharsAux fuel n, ∃ d, d < 10 ∧ c = Char.ofNat (48 + d) := by
  induction fuel with
  | zero =>
    intro n c hc
    simp only [natToCharsAux, List.mem_singleton] at hc
    exact ⟨n % 10, Nat.mod_lt _ (by omega), hc⟩
  | succ f ih =>
    intro n c hc
    rw [natToCharsAux] at hc
    by_cases h10 : n < 10
    · rw [if_pos h10] at hc
      simp only [List.mem_singleton] at hc
      exact ⟨n, h10, hc⟩
    · rw [if_neg h10] at hc
      rcases List.mem_append.mp hc with hm | hm
      · exact ih (n / 10) c hm
      · simp only [List.mem_singleton] at hm
        exact ⟨n % 10, Nat.mod_lt _ (by omega), hm⟩

theorem natToChars_mem (n : Nat) :
    ∀ c ∈ natToChars n, ∃ d, d < 10 ∧ c = Char.ofNat (48 + d) :=
  natToCharsAux_mem n n

theorem digitsToNat_natToCharsAux (fuel : Nat) :
    ∀ n, n ≤ fuel → digitsToNat (natToCharsAux fuel n) = n := by
  induction fuel with
  | zero =>
    intro n hn
    have : n = 0 := by omega
    subst this
    decide
  | succ f ih =>
    intro n hn
    rw [natToCharsAux]
    by_cases h10 : n < 10
    · rw [if_pos h10]
      simp only [digitsToNat, List.foldl_cons, List.foldl_nil]
      rw [(digit_char_props n h10).2.2.2.2.2.2]
      omega
    · rw [if_neg h10]
      unfold digitsToNat
      rw [List.foldl_append]
      have hfuel : n / 10 ≤ f := by
        have := Nat.div_lt_self (show 0 < n by omega) (show 1 < 10 by omega)
        omega
      have hrec := ih (n / 10) hfuel
      unfold digitsToNat at hrec
      rw [hrec]
      simp only [List.foldl_cons, List.foldl_nil]
      rw [(digit_char_props (n % 10) (Nat.mod_lt _ (by omega))).2.2.2.2.2.2]
      omega

theorem digitsToNat_natToChars (n : Nat) : digitsToNat (natToChars n) = n :=
  digitsToNat_natToCharsAux n n (le_refl n)

theorem takeWhile_eq_self_of_all (p : Char → Bool) (l : List Char)
    (h : ∀ c ∈ l, p c = true) : l.takeWhile p = l := by
  induction l with
  | nil => rfl
  | cons c l' ih =>
    rw [List.takeWhile_cons, if_pos (h c (List.mem_cons_self _ _))]
    rw [ih (fun x hx => h x (List.mem_cons_of_mem _ hx))]

theorem parseDigits_natToChars (n : Nat) : parseDigits (natToChars n) = some n := by
  unfold parseDigits
  rw [takeWhile_eq_self_of_all isDigitChar (natToChars n)
    (fun c hc => by
      obtain ⟨d, hd, rfl⟩ := natToChars_mem n c hc
      exact (digit_char_props d hd).1)]
  rw [if_neg (by simpa [List.isEmpty_iff] using natToChars_ne_nil n)]
  rw [digitsToNat_natToChars]

theorem jsParseInt_cons (c : Char) (rest : List Char) (h : isWS c = false) :
    jsParseInt (c :: rest) =
      (if c = '-' then (parseDigits rest).map (fun n => -(Int.ofNat n))
       else if c = '+' then (parseDigits rest).map Int.ofNat
       else (parseDigits (c :: rest)).map Int.ofNat) := by
  unfold jsParseInt
  rw [List.dropWhile_cons, if_neg (by simp [h])]

theorem jsParseInt_intToChars (i : Int) : jsParseInt (intToChars i) = some i := by
  unfold intToChars
  by_cases hneg : i < 0
  · rw [if_pos hneg]
    rw [jsParseInt_cons '-' _ (by decide)]
    rw [if_pos rfl]
    rw [parseDigits_natToChars]
    simp only [Option.map_some']
    congr 1
    have habs : ((i.natAbs : Int)) = -i := Int.ofNat_natAbs_of_nonpos (le_of_lt hneg)
    rw [show Int.ofNat i.natAbs = ((i.natAbs : Int)) from rfl, habs, neg_neg]
  · rw [if_neg hneg]
    cases hs : natToChars i.natAbs with
    | nil => exact absurd hs (natToChars_ne_nil _)
    | cons c rest =>
      have hcmem : c ∈ natToChars i.natAbs := by rw [hs]; exact List.mem_cons_self _ _
      obtain ⟨d, hd, rfl⟩ := natToChars_mem _ c hcmem
      have props := digit_char_props d hd
      rw [jsParseInt_cons _ _ props.2.1]
      rw [if_neg props.2.2.2.2.1, if_neg props.2.2.2.2.2.1]
      rw [← hs, parseDigits_natToChars]
      simp only [Option.map_some']
      congr 1
      rw [show Int.ofNat i.natAbs = ((i.natAbs : Int)) from rfl]
      exact Int.natAbs_of_nonneg (by omega)

/-! ## Lemmas about line-ending normalization -/

/-! ## Lemmas about rendered blocks -/

theorem head?_mem {l : List Char} {c : Char} (h : l.head? = some c) : c ∈ l := by
  cases l with
  | nil => simp at h
  | cons a l' =>
    simp only [List.head?_cons, Option.some.injEq] at h
    exact h ▸ List.mem_cons_self a l'

theorem noNN_of_forall_ne (s : List Char) (h : ∀ c ∈ s, c ≠ '\n') :
    noNN s = true := by
  induction s with
  | nil => rfl
  | cons c rest ih =>
    have hc : c ≠ '\n' := h c (List.mem_cons_self _ _)
    rw [noNN_cons]
    simp only [Bool.and_eq_true, Bool.not_eq_true']
    refine ⟨by simp [hc], ih (fun x hx => h x (List.mem_cons_of_mem _ hx))⟩

theorem noNN_append (a b : List Char) (ha : noNN a = true) (hb : noNN b = true)
    (hab : ¬(a.getLast? = some '\n' ∧ b.head? = some '\n')) :
    noNN (a ++ b) = true := by
  induction a with
  | nil => simpa using hb
  | cons c a' ih =>
    obtain ⟨hcond, ha'⟩ := noNN_cons_elim ha
    cases a' with
    | nil =>
      show noNN (c :: b) = true
      rw [noNN_cons]
      simp only [Bool.and_eq_true, Bool.not_eq_true']
      refine ⟨?_, hb⟩
      by_cases hc : c = '\n'
      · subst hc
        have hbh : b.head? ≠ some '\n' := fun hq => hab ⟨rfl, hq⟩
        simp [hbh]
      · simp [hc]
    | cons d a'' =>
      have hab' : ¬((d :: a'').getLast? = some '\n' ∧ b.head? = some '\n') := by
        rw [List.getLast?_cons_cons] at hab
        exact hab
      have hih := ih ha' hab'
      show noNN (c :: ((d :: a'') ++ b)) = true
      rw [noNN_cons]
      simp only [Bool.and_eq_true, Bool.not_eq_true']
      refine ⟨?_, hih⟩
      by_cases hc : c = '\n'
      · subst hc
        have hd : d ≠ '\n' := fun e => hcond ⟨rfl, by simp [e]⟩
        simp [hd]
      · simp [hc]

theorem noEdgeWS_intro (s : List Char)
    (h1 : ∀ c, s.head? = some c → isWS c = false)
    (h2 : ∀ c, s.getLast? = some c → isWS c = false) : noEdgeWS s = true := by
  unfold noEdgeWS
  rw [Bool.and_eq_true]
  constructor
  · cases hh : s.head? with
    | none => rfl
    | some c => simpa using h1 c hh
  · cases hl : s.getLast? with
    | none => rfl
    | some c => simpa using h2 c hl

theorem timestampOK_elim {s : List Char} (h : timestampOK s = true) :
    (∀ c ∈ s, c ≠ '\n' ∧ c ≠ '\r') ∧ arrowFree s = true ∧ noEdgeWS s = true := by
  unfold timestampOK at h
  simp only [Bool.and_eq_true] at h
  refine ⟨?_, h.1.2, h.2⟩
  intro c hc
  have hall := h.1.1
  unfold nlCrFree at hall
  rw [List.all_eq_true] at hall
  have := hall c hc
  simp only [Bool.and_eq_true, Bool.not_eq_true', beq_eq_false_iff_ne] at this
  exact this

theorem textOK_elim {t : List Char} (h : textOK t = true) :
    t ≠ [] ∧ noNN t = true ∧ (∀ c ∈ t, c ≠ '\r') ∧ t.head? ≠ some '\n' ∧
      (∀ c, t.getLast? = some c → isWS c = false) := by
  unfold textOK at h
  simp only [Bool.and_eq_true] at h
  obtain ⟨⟨⟨⟨hne, hnn⟩, hcr⟩, hhd⟩, hlast⟩ := h
  refine ⟨by simpa [List.isEmpty_iff] using hne, hnn, ?_, ?_, ?_⟩
  · intro c hc
    rw [List.all_eq_true] at hcr
    have := hcr c hc
    simpa using this
  · intro he
    rw [he] at hhd
    simp at hhd
  · intro c hc
    rw [hc] at hlast
    simpa using hlast

theorem jsOr_eq_getD {b : SrtBlock}
    (h : (match b.translatedText with | some t => textOK t | none => true) = true) :
    jsOr b.translatedText b.originalText = b.translatedText.getD b.originalText := by
  cases htt : b.translatedText with
  | none => rfl
  | some tt =>
    rw [htt] at h
    have htne : tt ≠ [] := (textOK_elim h).1
    simp [jsOr, Option.getD, List.isEmpty_iff, htne]

theorem wfBlock_elim {b : SrtBlock} (h : wfBlock b = true) :
    timestampOK b.startTime = true ∧ timestampOK b.endTime = true ∧
      textOK b.originalText = true ∧
      textOK (jsOr b.translatedText b.originalText) = true ∧
      jsOr b.translatedText b.originalText = b.translatedText.getD b.originalText := by
  unfold wfBlock at h
  simp only [Bool.and_eq_true] at h
  obtain ⟨⟨⟨hs, he⟩, ho⟩, htt⟩ := h
  refine ⟨hs, he, ho, ?_, jsOr_eq_getD htt⟩
  cases h2 : b.translatedText with
  | none => simpa [jsOr] using ho
  | some tt =>
    rw [h2] at htt
    have htne : tt ≠ [] := (textOK_elim htt).1
    simpa [jsOr, List.isEmpty_iff, htne] using htt

theorem intToChars_mem (i : Int) :
    ∀ c ∈ intToChars i, c = '-' ∨ ∃ d, d < 10 ∧ c = Char.ofNat (48 + d) := by
  intro c hc
  unfold intToChars at hc
  by_cases hneg : i < 0
  · rw [if_pos hneg] at hc
    rcases List.mem_cons.mp hc with rfl | hm
    · exact Or.inl rfl
    · exact Or.inr (natToChars_mem _ c hm)
  · rw [if_neg hneg] at hc
    exact Or.inr (natToChars_mem _ c hc)

theorem intToChars_facts (i : Int) :
    ∀ c ∈ intToChars i, isWS c = false ∧ c ≠ '\n' ∧ c ≠ '\r' := by
  intro c hc
  rcases intToChars_mem i c hc with rfl | ⟨d, hd, rfl⟩
  · exact ⟨by decide, by decide, by decide⟩
  · have p := digit_char_props d hd
    exact ⟨p.2.1, p.2.2.1, p.2.2.2.1⟩

theorem intToChars_ne_nil (i : Int) : intToChars i ≠ [] := by
  unfold intToChars
  split
  · simp
  · exact natToChars_ne_nil _

theorem renderBlock_eq (b : SrtBlock) :
    renderBlock b = intToChars b.id ++ '\n' ::
      ((b.startTime ++ arrowSep ++ b.endTime) ++
        '\n' :: jsOr b.translatedText b.originalText) := by
  unfold renderBlock
  simp [List.cons_append, List.append_assoc]

theorem timeline_eq (s e : List Char) :
    s ++ arrowSep ++ e = (s ++ [' ']) ++ '-' :: '-' :: '>' :: (' ' :: e) := by
  simp [arrowSep, List.cons_append, List.append_assoc]

theorem normalize_eq_self (s : List Char) (h : ∀ c ∈ s, c ≠ '\r') :
    normalize s = s := by
  induction s with
  | nil => rfl
  | cons c rest ih =>
    have hc : c ≠ '\r' := h c (List.mem_cons_self _ _)
    have hrest := ih (fun x hx => h x (List.mem_cons_of_mem _ hx))
    cases rest with
    | nil => simp [normalize, hc]
    | cons d rest2 =>
      rw [normalize, if_neg hc, hrest]

theorem getLast?_mem {l : List Char} {c : Char} (h : l.getLast? = some c) : c ∈ l := by
  induction l with
  | nil => simp at h
  | cons a l' ih =>
    cases l' with
    | nil =>
      simp only [List.getLast?_singleton, Option.some.injEq] at h
      exact h ▸ List.mem_cons_self a []
    | cons b l'' =>
      rw [List.getLast?_cons_cons] at h
      exact List.mem_cons_of_mem a (ih h)

theorem timelineChars (s e : List Char)
    (hs : ∀ c ∈ s, c ≠ '\n' ∧ c ≠ '\r') (he : ∀ c ∈ e, c ≠ '\n' ∧ c ≠ '\r') :
    ∀ c ∈ s ++ arrowSep ++ e, c ≠ '\n' ∧ c ≠ '\r' := by
  intro c hc
  have hsplit : c ∈ s ∨ c ∈ arrowSep ∨ c ∈ e := by
    simp only [List.mem_append] at hc
    tauto
  rcases hsplit with hm | hm | hm
  · exact hs c hm
  · have : c = ' ' ∨ c = '-' ∨ c = '-' ∨ c = '>' ∨ c = ' ' := by
      simpa [arrowSep] using hm
    rcases this with rfl | rfl | rfl | rfl | rfl <;> exact ⟨by decide, by decide⟩
  · exact he c hm

theorem timeline_ne_nil (s e : List Char) : s ++ arrowSep ++ e ≠ [] := by
  simp [arrowSep]

theorem renderBlock_getLast? (b : SrtBlock)
    (htne : jsOr b.translatedText b.originalText ≠ []) :
    (renderBlock b).getLast? = (jsOr b.translatedText b.originalText).getLast? := by
  rw [renderBlock_eq b]
  rw [List.getLast?_append_of_ne_nil _ (by simp)]
  rw [show ('\n' :: ((b.startTime ++ arrowSep ++ b.endTime) ++
      '\n' :: jsOr b.translatedText b.originalText)) =
      ['\n'] ++ ((b.startTime ++ arrowSep ++ b.endTime) ++
      '\n' :: jsOr b.translatedText b.originalText) from rfl]
  rw [List.getLast?_append_of_ne_nil _ (by simp)]
  rw [List.getLast?_append_of_ne_nil _ (by simp)]
  rw [show ('\n' :: jsOr b.translatedText b.originalText) =
      ['\n'] ++ jsOr b.translatedText b.originalText from rfl]
  rw [List.getLast?_append_of_ne_nil _ htne]

theorem renderBlock_piece (b : SrtBlock) (h : wfBlock b = true) :
    renderBlock b ≠ [] ∧ noNN (renderBlock b) = true ∧
      (renderBlock b).head? ≠ some '\n' ∧ (renderBlock b).getLast? ≠ some '\n' ∧
      ∀ c ∈ renderBlock b, c ≠ '\r' := by
  obtain ⟨hsOK, heOK, hoOK, htOK, hgetd⟩ := wfBlock_elim h
  obtain ⟨htne, htnn, htcr, hthead, htlast⟩ := textOK_elim htOK
  obtain ⟨hsc, hsaf, hsws⟩ := timestampOK_elim hsOK
  obtain ⟨hec, heaf, hews⟩ := timestampOK_elim heOK
  have hAne := intToChars_ne_nil b.id
  have hAf := intToChars_facts b.id
  have hBc := timelineChars b.startTime b.endTime hsc hec
  have hBne := timeline_ne_nil b.startTime b.endTime
  have hthd : ((jsOr b.translatedText b.originalText).head? == some '\n') = false := by
    cases hh : (jsOr b.translatedText b.originalText).head? with
    | none => rfl
    | some x =>
      have hx : x ≠ '\n' := fun e => hthead (by rw [hh, e])
      simp [hx]
  refine ⟨?_, ?_, ?_, ?_, ?_⟩
  · rw [renderBlock_eq b]
    simp [hAne]
  · rw [renderBlock_eq b]
    apply noNN_append
    · exact noNN_of_forall_ne _ (fun c hc => (hAf c hc).2.1)
    · obtain ⟨c0, hc0⟩ : ∃ c0, (b.startTime ++ arrowSep ++ b.endTime).head? = some c0 := by
        cases hB : (b.startTime ++ arrowSep ++ b.endTime).head? with
        | none => exact absurd (List.head?_eq_none_iff.mp hB) hBne
        | some c0 => exact ⟨c0, rfl⟩
      have hc0ne : c0 ≠ '\n' := (hBc c0 (head?_mem hc0)).1
      rw [noNN_cons]
      simp only [Bool.and_eq_true, Bool.not_eq_true']
      constructor
      · rw [List.head?_append_of_ne_nil _ hBne, hc0]
        simp [hc0ne]
      · apply noNN_append
        · exact noNN_of_forall_ne _ (fun c hc => (hBc c hc).1)
        · rw [noNN_cons]
          simp only [Bool.and_eq_true, Bool.not_eq_true']
          exact ⟨by simp [hthd], htnn⟩
        · rintro ⟨hbl, -⟩
          exact (hBc '\n' (getLast?_mem hbl)).1 rfl
    · rintro ⟨hAl, -⟩
      exact (hAf '\n' (getLast?_mem hAl)).2.1 rfl
  · intro hc
    rw [renderBlock_eq b, List.head?_append_of_ne_nil _ hAne] at hc
    exact (hAf '\n' (head?_mem hc)).2.1 rfl
  · rw [renderBlock_getLast? b htne]
    intro hc
    have := htlast '\n' hc
    simp [isWS] at this
  · intro c hc
    rw [renderBlock_eq b] at hc
    have hsplit : c ∈ intToChars b.id ∨ c = '\n' ∨ c ∈ b.startTime ∨
        c ∈ arrowSep ∨ c ∈ b.endTime ∨
        c ∈ jsOr b.translatedText b.originalText := by
      simp only [List.mem_append, List.mem_cons] at hc
      tauto
    rcases hsplit with hm | rfl | hm | hm | hm | hm
    · exact (hAf c hm).2.2
    · decide
    · exact (hsc c hm).2
    · have : c = ' ' ∨ c = '-' ∨ c = '-' ∨ c = '>' ∨ c = ' ' := by
        simpa [arrowSep] using hm
      rcases this with rfl | rfl | rfl | rfl | rfl <;> decide
    · exact (hec c hm).2
    · exact htcr c hm

theorem parseBlock_renderBlock (b : SrtBlock) (h : wfBlock b = true) :
    parseBlock (renderBlock b) =
      some { id := b.id, startTime := b.startTime, endTime := b.endTime,
             originalText := jsOr b.translatedText b.originalText } := by
  obtain ⟨hsOK, heOK, hoOK, htOK, hgetd⟩ := wfBlock_elim h
  obtain ⟨htne, htnn, htcr, hthead, htlast⟩ := textOK_elim htOK
  obtain ⟨hsc, hsaf, hsws⟩ := timestampOK_elim hsOK
  obtain ⟨hec, heaf, hews⟩ := timestampOK_elim heOK
  have hAne := intToChars_ne_nil b.id
  have hAf := intToChars_facts b.id
  have hBc := timelineChars b.startTime b.endTime hsc hec
  have htrim : trim (renderBlock b) = renderBlock b := by
    apply trim_eq_self
    apply noEdgeWS_intro
    · intro c hc
      rw [renderBlock_eq b, List.head?_append_of_ne_nil _ hAne] at hc
      exact (hAf c (head?_mem hc)).1
    · intro c hc
      rw [renderBlock_getLast? b htne] at hc
      exact htlast c hc
  have hAnl : '\n' ∉ intToChars b.id := fun hm => (hAf _ hm).2.1 rfl
  have hBnl : '\n' ∉ b.startTime ++ arrowSep ++ b.endTime :=
    fun hm => (hBc _ hm).1 rfl
  have hlines : splitLines (trim (renderBlock b)) =
      intToChars b.id :: (b.startTime ++ arrowSep ++ b.endTime) ::
        splitLines (jsOr b.translatedText b.originalText) := by
    rw [htrim, renderBlock_eq b]
    rw [splitLines_append_nl _ _ hAnl]
    rw [splitLines_append_nl _ _ hBnl]
  have hsplitB : splitArrow (b.startTime ++ arrowSep ++ b.endTime) =
      [b.startTime ++ [' '], ' ' :: b.endTime] := by
    rw [timeline_eq]
    rw [splitArrow_append_sep _ _ (arrowFree_append_single _ ' ' (by decide) hsaf)]
    rw [splitArrow_of_arrowFree _ (arrowFree_cons_space _ heaf)]
  have hlen : ¬(splitLines (trim (renderBlock b))).length < 3 := by
    rw [hlines]
    simp only [List.length_cons]
    have := List.length_pos.mpr
      (splitLines_ne_nil (jsOr b.translatedText b.originalText))
    omega
  simp only [parseBlock]
  rw [hlines] at hlen ⊢
  rw [if_neg hlen]
  simp only [List.headD_cons, List.getD_cons_succ, List.getD_cons_zero]
  rw [jsParseInt_intToChars b.id]
  rw [hsplitB]
  simp only [List.length_cons, List.length_singleton, List.length_nil]
  rw [if_neg (by omega)]
  simp only [List.headD_cons, List.getD_cons_succ, List.getD_cons_zero,
    List.drop_succ_cons, List.drop_zero]
  rw [trim_append_space _ hsws, trim_cons_space _ hews, joinNL_splitLines]

theorem mem_joinNN (ps : List (List Char)) (c : Char) (hc : c ∈ joinNN ps) :
    (∃ p ∈ ps, c ∈ p) ∨ c = '\n' := by
  induction ps with
  | nil => simp [joinNN] at hc
  | cons p ps ih =>
    cases ps with
    | nil =>
      exact Or.inl ⟨p, List.mem_cons_self _ _, by simpa [joinNN] using hc⟩
    | cons q qs =>
      have hsplit : c ∈ p ∨ c = '\n' ∨ c ∈ joinNN (q :: qs) := by
        simp only [joinNN, List.mem_append, List.mem_cons] at hc
        tauto
      rcases hsplit with hm | rfl | hm
      · exact Or.inl ⟨p, List.mem_cons_self _ _, hm⟩
      · exact Or.inr rfl
      · rcases ih hm with ⟨r, hr, hcr⟩ | rfl
        · exact Or.inl ⟨r, List.mem_cons_of_mem _ hr, hcr⟩
        · exact Or.inr rfl

theorem filterMap_parse_render (l : List SrtBlock)
    (h : ∀ b ∈ l, wfBlock b = true) :
    (l.map renderBlock).filterMap parseBlock = l.map (fun b =>
      { id := b.id, startTime := b.startTime, endTime := b.endTime,
        originalText := b.translatedText.getD b.originalText }) := by
  induction l with
  | nil => rfl
  | cons b l' ih =>
    have hb := h b (List.mem_cons_self _ _)
    simp only [List.map_cons, List.filterMap_cons]
    rw [parseBlock_renderBlock b hb, (wfBlock_elim hb).2.2.2.2]
    rw [ih (fun x hx => h x (List.mem_cons_of_mem _ hx))]

/-- C1 (amended): for every sequence of blocks whose timestamps contain no
newlines, no carriage returns, no `-->` and no leading or trailing
whitespace, and whose text fields are non-empty with no blank-line runs, no
carriage returns, no leading newline and no trailing whitespace, parsing
the serialization yields a same-length sequence with identical id,
startTime and endTime, whose originalText is the translatedText where that
was set and the originalText otherwise. -/
theorem claim_C1_roundtrip (bs : List SrtBlock)
    (h : ∀ b ∈ bs, wfBlock b = true) :
    parseSRT (stringifySRT bs) = bs.map (fun b =>
      { id := b.id, startTime := b.startTime, endTime := b.endTime,
        originalText := b.translatedText.getD b.originalText }) := by
  cases bs with
  | nil => decide
  | cons b0 bs' =>
    unfold parseSRT stringifySRT
    have hpieces : ∀ p ∈ (b0 :: bs').map renderBlock, p ≠ [] ∧ noNN p = true ∧
        p.head? ≠ some '\n' ∧ p.getLast? ≠ some '\n' := by
      intro p hp
      obtain ⟨b, hb, rfl⟩ := List.mem_map.mp hp
      have pc := renderBlock_piece b (h b hb)
      exact ⟨pc.1, pc.2.1, pc.2.2.1, pc.2.2.2.1⟩
    have hnorm : normalize (joinNN ((b0 :: bs').map renderBlock)) =
        joinNN ((b0 :: bs').map renderBlock) := by
      apply normalize_eq_self
      intro c hc
      rcases mem_joinNN _ c hc with ⟨p, hp, hcp⟩ | rfl
      · obtain ⟨b, hb, rfl⟩ := List.mem_map.mp hp
        exact (renderBlock_piece b (h b hb)).2.2.2.2 c hcp
      · decide
    rw [hnorm]
    rw [splitNN_joinNN _ (by simp) hpieces]
    exact filterMap_parse_render _ h

/-- C1 counterexample: the block
`{id 1, startTime " a", endTime "b", text "x"}` satisfies the claim's own
well-formedness condition (non-empty text without blank-line runs,
timestamps without newlines or `-->`), yet `Parse(Serialize([b]))` returns
startTime `"a"`: the leading space of the timestamp is trimmed away, so the
startTime is not preserved as the claim asserts. -/
theorem claim_C1_counterexample :
    claimWellFormed { id := 1, startTime := [' ', 'a'], endTime := ['b'],
                      originalText := ['x'] } = true ∧
    (parseSRT (stringifySRT [{ id := 1, startTime := [' ', 'a'],
                               endTime := ['b'],
                               originalText := ['x'] }])).map
      (fun b => b.startTime) = [['a']] ∧
    ([' ', 'a'] : List Char) ≠ ['a'] := by decide

/-- Witness for C1: the amended round trip evaluated on a concrete
two-block sequence with a set translation, a negative id, an empty
timestamp and a multi-line text. -/
theorem claim_C1_roundtrip_witness :
    parseSRT (stringifySRT [
      { id := 1, startTime := ['a'], endTime := ['b'], originalText := ['x'],
                 translatedText := some ['y'] },
      { id := -2, startTime := [], endTime := ['c'],
                  originalText := ['e', '\n', 'f'] }]) =
    [{ id := 1, startTime := ['a'], endTime := ['b'], originalText := ['y'] },
     { id := -2, startTime := [], endTime := ['c'],
                 originalText := ['e', '\n', 'f'] }] := by
  have h := claim_C1_roundtrip [
      { id := 1, startTime := ['a'], endTime := ['b'], originalText := ['x'],
                 translatedText := some ['y'] },
      { id := -2, startTime := [], endTime := ['c'],
                  originalText := ['e', '\n', 'f'] }] (by decide)
  simpa using h

/-! ## Lemmas about the id map and the aligner -/

theorem getLast?_cons_eq (b : SrtBlock) (l : List SrtBlock) :
    (b :: l).getLast? = match l.getLast? with
      | some t => some t
      | none => some b := by
  cases l with
  | nil => rfl
  | cons c l' =>
    rw [List.getLast?_cons_cons]
    cases hx : (c :: l').getLast? with
    | none =>
      rw [List.getLast?_eq_none_iff] at hx
      exact absurd hx (by simp)
    | some y => rfl

theorem mkIdMap_foldl (bs : List SrtBlock) (m : Int → Option SrtBlock) (i : Int) :
    (bs.foldl (fun m b => fun k => if k = b.id then some b else m k) m) i =
      match (bs.filter (fun b => b.id == i)).getLast? with
      | some t => some t
      | none => m i := by
  induction bs generalizing m with
  | nil => rfl
  | cons b bs' ih =>
    simp only [List.foldl_cons, List.filter_cons]
    by_cases hb : b.id = i
    · rw [if_pos (by simpa using hb)]
      rw [ih]
      rw [getLast?_cons_eq]
      cases hf : (bs'.filter (fun b => b.id == i)).getLast? with
      | some t => rfl
      | none => simp [hb]
    · rw [if_neg (by simpa using hb)]
      rw [ih]
      cases hf : (bs'.filter (fun b => b.id == i)).getLast? with
      | some t => rfl
      | none =>
        have hne : i ≠ b.id := fun e => hb e.symm
        simp [hne]

theorem mkIdMap_spec (bs : List SrtBlock) (i : Int) :
    mkIdMap bs i = (bs.filter (fun b => b.id == i)).getLast? := by
  unfold mkIdMap
  rw [mkIdMap_foldl]
  cases (bs.filter (fun b => b.id == i)).getLast? <;> rfl

theorem mkIdMap_eq_none (bs : List SrtBlock) (i : Int)
    (h : ∀ b ∈ bs, b.id ≠ i) : mkIdMap bs i = none := by
  rw [mkIdMap_spec]
  have hf : bs.filter (fun b => b.id == i) = [] := by
    rw [List.filter_eq_nil_iff]
    intro b hb
    simpa using h b hb
  rw [hf]
  rfl

theorem mkIdMap_ne_none (bs : List SrtBlock) (i : Int)
    (h : ∃ b ∈ bs, b.id = i) : mkIdMap bs i ≠ none := by
  rw [mkIdMap_spec]
  obtain ⟨b, hb, hid⟩ := h
  have hmem : b ∈ bs.filter (fun b => b.id == i) :=
    List.mem_filter.mpr ⟨hb, by simpa using hid⟩
  intro hnone
  rw [List.getLast?_eq_none_iff] at hnone
  rw [hnone] at hmem
  simp at hmem

theorem alignOne_of_idMatch (tb : List SrtBlock) (tm : Int → Option SrtBlock)
    (i : Nat) (o t : SrtBlock) (h : tm o.id = some t) :
    alignOne tb tm i o = some { o with translatedText := some t.originalText } := by
  unfold alignOne
  rw [h]
  rfl

theorem alignAll_map (tb : List SrtBlock) (tm : Int → Option SrtBlock)
    (os : List SrtBlock) (i : Nat) (h : ∀ o ∈ os, tm o.id ≠ none) :
    alignAll tb tm i os = os.map (fun o =>
      { o with translatedText := (tm o.id).map (fun t => t.originalText) }) := by
  induction os generalizing i with
  | nil => rfl
  | cons o os' ih =>
    have ho := h o (List.mem_cons_self _ _)
    cases hto : tm o.id with
    | none => exact absurd hto ho
    | some t =>
      have h1 := alignOne_of_idMatch tb tm i o t hto
      simp only [alignAll, h1, List.map_cons, hto, Option.map_some']
      rw [ih (i + 1) (fun x hx => h x (List.mem_cons_of_mem _ hx))]

/-- C2: if every block parsed from A has a block parsed from B with the
same id, `Align(A, B)` returns exactly one pair per A block, in A's order,
each being a copy of the A block with translatedText set to the matched B
block's text (the block the id map holds for that id). -/
theorem claim_C2_align_exact (A B : List Char)
    (h : ∀ o ∈ parseSRT A, ∃ t ∈ parseSRT B, t.id = o.id) :
    alignSrts A B = (parseSRT A).map (fun o =>
      { o with translatedText :=
          (mkIdMap (parseSRT B) o.id).map (fun t => t.originalText) }) := by
  unfold alignSrts
  apply alignAll_map
  intro o ho
  obtain ⟨t, ht, hid⟩ := h o ho
  exact mkIdMap_ne_none _ _ ⟨t, ht, hid⟩

/-- Witness for C2 on concrete one-block tracks with matching ids. -/
theorem claim_C2_align_exact_witness :
    alignSrts ("1\na --> b\nHello".toList) ("1\nc --> d\nBonjour".toList) =
      (parseSRT ("1\na --> b\nHello".toList)).map (fun o =>
        { o with translatedText :=
                   (mkIdMap (parseSRT ("1\nc --> d\nBonjour".toList)) o.id).map
                     (fun t => t.originalText) }) :=
  claim_C2_align_exact ("1\na --> b\nHello".toList)
    ("1\nc --> d\nBonjour".toList) (by decide)

/-- C10: when the translated track parses to several blocks sharing an id,
the id lookup built by `translatedBlocks.forEach(b => map.set(b.id, b))`
holds the LAST block with that id in track order, and the per-block
alignment step pairs an original block of that id with exactly that block,
copying its text into translatedText. -/
theorem claim_C10_last_id_wins (B : List Char) (o t : SrtBlock) (i : Nat)
    (h : ((parseSRT B).filter (fun b => b.id == o.id)).getLast? = some t) :
    mkIdMap (parseSRT B) o.id = some t ∧
    alignOne (parseSRT B) (mkIdMap (parseSRT B)) i o =
      some { o with translatedText := some t.originalText } := by
  have hmap : mkIdMap (parseSRT B) o.id = some t := by
    rw [mkIdMap_spec]
    exact h
  exact ⟨hmap, alignOne_of_idMatch _ _ i o t hmap⟩

/-- Witness for C10 on a translated track with two blocks of id 7: the
lookup and the alignment step both use the second (last) block. -/
theorem claim_C10_last_id_wins_witness :
    mkIdMap (parseSRT ("7\na --> b\nfirst\n\n7\nc --> d\nsecond".toList)) 7 =
      some { id := 7, startTime := ['c'], endTime := ['d'],
             originalText := "second".toList } ∧
    alignOne (parseSRT ("7\na --> b\nfirst\n\n7\nc --> d\nsecond".toList))
        (mkIdMap (parseSRT ("7\na --> b\nfirst\n\n7\nc --> d\nsecond".toList))) 0
        { id := 7, startTime := ['x'], endTime := ['y'],
          originalText := "orig".toList } =
      some { id := 7, startTime := ['x'], endTime := ['y'],
             originalText := "orig".toList,
             translatedText := some ("second".toList) } :=
  claim_C10_last_id_wins ("7\na --> b\nfirst\n\n7\nc --> d\nsecond".toList)
    { id := 7, startTime := ['x'], endTime := ['y'],
      originalText := "orig".toList }
    { id := 7, startTime := ['c'], endTime := ['d'],
      originalText := "second".toList }
    0 (by decide)

/-! ## Lemmas for the fallback-safety claim -/

theorem alignAll_length_le (tb : List SrtBlock) (tm : Int → Option SrtBlock)
    (os : List SrtBlock) : ∀ i, (alignAll tb tm i os).length ≤ os.length := by
  induction os with
  | nil => intro i; simp [alignAll]
  | cons o os' ih =>
    intro i
    rw [alignAll]
    cases alignOne tb tm i o with
    | some p =>
      simp only [List.length_cons]
      exact Nat.succ_le_succ (ih (i + 1))
    | none =>
      simp only [List.length_cons]
      exact Nat.le_succ_of_le (ih (i + 1))

theorem alignAll_length_lt (tb : List SrtBlock) (tm : Int → Option SrtBlock)
    (os : List SrtBlock) : ∀ i j (hj : j < os.length),
    alignOne tb tm (i + j) (os.get ⟨j, hj⟩) = none →
    (alignAll tb tm i os).length < os.length := by
  induction os with
  | nil => intro i j hj; simp at hj
  | cons o os' ih =>
    intro i j hj hnone
    cases j with
    | zero =>
      have h0 : alignOne tb tm i o = none := by simpa using hnone
      rw [alignAll, h0]
      simp only [List.length_cons]
      have := alignAll_length_le tb tm os' (i + 1)
      omega
    | succ j' =>
      have hj' : j' < os'.length := by simpa using hj
      have heq : alignOne tb tm ((i + 1) + j') (os'.get ⟨j', hj'⟩) = none := by
        have harith : i + (j' + 1) = (i + 1) + j' := by omega
        have hget : (o :: os').get ⟨j' + 1, hj⟩ = os'.get ⟨j', hj'⟩ := rfl
        rw [← harith, ← hget]
        exact hnone
      have hrec := ih (i + 1) j' hj' heq
      rw [alignAll]
      cases alignOne tb tm i o with
      | some p =>
        simp only [List.length_cons]
        omega
      | none =>
        simp only [List.length_cons]
        omega

theorem exists_min_int (l : List Int) (h : l ≠ []) :
    ∃ a ∈ l, ∀ b ∈ l, a ≤ b := by
  induction l with
  | nil => exact absurd rfl h
  | cons x l' ih =>
    cases hl' : l' with
    | nil => exact ⟨x, by simp, by simp⟩
    | cons y l'' =>
      obtain ⟨a, ha, hale⟩ := ih (by simp [hl'])
      rw [hl'] at ha hale
      by_cases hxa : x ≤ a
      · refine ⟨x, List.mem_cons_self _ _, ?_⟩
        intro b hb
        rcases List.mem_cons.mp hb with rfl | hb'
        · exact le_refl b
        · exact le_trans hxa (hale b (hl' ▸ hb'))
      · refine ⟨a, List.mem_cons_of_mem _ (hl' ▸ ha), ?_⟩
        intro b hb
        rcases List.mem_cons.mp hb with rfl | hb'
        · exact le_of_not_le hxa
        · exact hale b (hl' ▸ hb')

theorem exists_max_int (l : List Int) (h : l ≠ []) :
    ∃ a ∈ l, ∀ b ∈ l, b ≤ a := by
  induction l with
  | nil => exact absurd rfl h
  | cons x l' ih =>
    cases hl' : l' with
    | nil => exact ⟨x, by simp, by simp⟩
    | cons y l'' =>
      obtain ⟨a, ha, hale⟩ := ih (by simp [hl'])
      rw [hl'] at ha hale
      by_cases hxa : a ≤ x
      · refine ⟨x, List.mem_cons_self _ _, ?_⟩
        intro b hb
        rcases List.mem_cons.mp hb with rfl | hb'
        · exact le_refl b
        · exact le_trans (hale b (hl' ▸ hb')) hxa
      · refine ⟨a, List.mem_cons_of_mem _ (hl' ▸ ha), ?_⟩
        intro b hb
        rcases List.mem_cons.mp hb with rfl | hb'
        · exact le_of_not_le hxa
        · exact hale b (hl' ▸ hb')

theorem align_miss_at (A B : List Char) (j0 : Nat)
    (hj0 : j0 < (parseSRT A).length)
    (hlen : (parseSRT B).length = (parseSRT A).length)
    (hnomatch : ∀ b ∈ parseSRT B, b.id ≠ ((parseSRT A).get ⟨j0, hj0⟩).id)
    (hstart : ∀ hj0b : j0 < (parseSRT B).length,
      ((parseSRT B).get ⟨j0, hj0b⟩).startTime ≠
        ((parseSRT A).get ⟨j0, hj0⟩).startTime) :
    (alignSrts A B).length < (parseSRT A).length := by
  have hj0b : j0 < (parseSRT B).length := by omega
  have hmapnone : mkIdMap (parseSRT B) (((parseSRT A).get ⟨j0, hj0⟩).id) = none :=
    mkIdMap_eq_none _ _ hnomatch
  have hstart' : ¬((parseSRT B)[j0].startTime = (parseSRT A)[j0].startTime) := by
    have := hstart hj0b
    simpa [List.get_eq_getElem] using this
  have halign : alignOne (parseSRT B) (mkIdMap (parseSRT B)) (0 + j0)
      ((parseSRT A).get ⟨j0, hj0⟩) = none := by
    have h0j : 0 + j0 = j0 := by omega
    rw [h0j]
    unfold alignOne
    rw [hmapnone]
    rw [List.getElem?_eq_getElem hj0b]
    simp [hstart']
  have hlt := alignAll_length_lt (parseSRT B) (mkIdMap (parseSRT B))
    (parseSRT A) 0 j0 hj0 halign
  exact hlt

/-- C3 (amended): for tracks with at least one block in A, with B's ids
equal to A's ids shifted by a non-zero constant offset and with B's
startTime differing from A's at every position, `Align(A, B)` returns
strictly fewer pairs than A has blocks: the fallback is positional only
and rejects candidates whose startTime differs. -/
theorem claim_C3_fallback_safety (A B : List Char) (k : Int) (hk : k ≠ 0)
    (hne : parseSRT A ≠ [])
    (hlen : (parseSRT B).length = (parseSRT A).length)
    (hshift : ∀ p ∈ (parseSRT A).zip (parseSRT B),
      p.2.id = p.1.id + k ∧ p.2.startTime ≠ p.1.startTime) :
    (alignSrts A B).length < (parseSRT A).length := by
  have hidx : ∀ j (hja : j < (parseSRT A).length) (hjb : j < (parseSRT B).length),
      ((parseSRT B).get ⟨j, hjb⟩).id = ((parseSRT A).get ⟨j, hja⟩).id + k ∧
      ((parseSRT B).get ⟨j, hjb⟩).startTime ≠
        ((parseSRT A).get ⟨j, hja⟩).startTime := by
    intro j hja hjb
    have hjz : j < ((parseSRT A).zip (parseSRT B)).length := by
      rw [List.length_zip]
      omega
    have hp := hshift (((parseSRT A).zip (parseSRT B)).get ⟨j, hjz⟩)
      (List.get_mem _ _ _)
    simpa [List.get_eq_getElem, List.getElem_zip] using hp
  rcases lt_or_gt_of_ne hk with hkneg | hkpos
  · -- k < 0: the maximal id of A has no match in B
    obtain ⟨a, ha, hbound⟩ := exists_max_int ((parseSRT A).map (fun b => b.id))
      (by simpa using hne)
    obtain ⟨o, ho, hoid⟩ := List.mem_map.mp ha
    obtain ⟨⟨j0, hj0⟩, hget⟩ := List.mem_iff_get.mp ho
    apply align_miss_at A B j0 hj0 hlen
    · intro b hb
      obtain ⟨⟨l, hl⟩, hbg⟩ := List.mem_iff_get.mp hb
      have hla : l < (parseSRT A).length := by omega
      have hsh := (hidx l hla hl).1
      have hmax := hbound (((parseSRT A).get ⟨l, hla⟩).id)
        (List.mem_map.mpr ⟨_, List.get_mem _ _ _, rfl⟩)
      rw [hget, hoid]
      rw [← hbg]
      omega
    · intro hj0b
      exact (hidx j0 hj0 hj0b).2
  · -- k > 0: the minimal id of A has no match in B
    obtain ⟨a, ha, hbound⟩ := exists_min_int ((parseSRT A).map (fun b => b.id))
      (by simpa using hne)
    obtain ⟨o, ho, hoid⟩ := List.mem_map.mp ha
    obtain ⟨⟨j0, hj0⟩, hget⟩ := List.mem_iff_get.mp ho
    apply align_miss_at A B j0 hj0 hlen
    · intro b hb
      obtain ⟨⟨l, hl⟩, hbg⟩ := List.mem_iff_get.mp hb
      have hla : l < (parseSRT A).length := by omega
      have hsh := (hidx l hla hl).1
      have hmin := hbound (((parseSRT A).get ⟨l, hla⟩).id)
        (List.mem_map.mpr ⟨_, List.get_mem _ _ _, rfl⟩)
      rw [hget, hoid]
      rw [← hbg]
      omega
    · intro hj0b
      exact (hidx j0 hj0 hj0b).2

/-- C3 counterexample: for the empty pair of tracks the claim's hypotheses
hold vacuously (ids shifted by the non-zero offset 1, startTimes differing
at every position), yet `Align` does not return strictly fewer pairs than
A has blocks — zero is not less than zero. -/
theorem claim_C3_counterexample :
    parseSRT ([] : List Char) = [] ∧
    (parseSRT ([] : List Char)).length = (parseSRT ([] : List Char)).length ∧
    ((parseSRT ([] : List Char)).zip (parseSRT ([] : List Char))).all
      (fun p => p.2.id == p.1.id + 1 && p.2.startTime != p.1.startTime) = true ∧
    ¬((alignSrts [] []).length < (parseSRT ([] : List Char)).length) := by
  decide

/-! ## Lemmas for the style-example extractor -/

theorem extractLoop_length_le (bs : List SrtBlock) :
    ∀ acc : List StyleExample, acc.length < 40 →
      (extractLoop bs acc).length ≤ 40 := by
  induction bs with
  | nil =>
    intro acc hacc
    exact le_of_lt hacc
  | cons b bs' ih =>
    intro acc hacc
    cases htt : b.translatedText with
    | none =>
      simp only [extractLoop, htt]
      exact ih acc hacc
    | some tt =>
      simp only [extractLoop, htt]
      set ex : StyleExample :=
        { original := flattenNL (trim b.originalText),
          translated := flattenNL tt } with hex
      by_cases hemp : tt.isEmpty = true
      · rw [if_pos hemp]
        exact ih acc hacc
      · rw [if_neg hemp]
        by_cases hcond : hasProperNoun (trim b.originalText) = true ∨
            (acc.length < 20 ∧ 20 < (trim b.originalText).length)
        · rw [if_pos hcond]
          by_cases h40 : 40 ≤ (acc ++ [ex]).length
          · rw [if_pos h40]
            simp only [List.length_append, List.length_singleton]
            omega
          · rw [if_neg h40]
            apply ih
            simp only [List.length_append, List.length_singleton] at h40 ⊢
            omega
        · rw [if_neg hcond]
          rw [if_neg (by omega)]
          exact ih acc hacc

theorem extractLoop_push_inv (L : List SrtBlock) (b : SrtBlock)
    (hb : b ∈ L) (tt : List Char) (htt : b.translatedText = some tt)
    (acc : List StyleExample)
    (hacc : ∀ i, 20 ≤ i → ∀ e, acc[i]? = some e → properNounSourced L e)
    (hcond : hasProperNoun (trim b.originalText) = true ∨
      (acc.length < 20 ∧ 20 < (trim b.originalText).length)) :
    ∀ i, 20 ≤ i → ∀ e,
      (acc ++ [{ original := flattenNL (trim b.originalText),
                 translated := flattenNL tt }])[i]? = some e →
      properNounSourced L e := by
  intro i h20 e he
  rw [List.getElem?_append] at he
  by_cases hlt : i < acc.length
  · rw [if_pos hlt] at he
    exact hacc i h20 e he
  · rw [if_neg hlt] at he
    by_cases hieq : i = acc.length
    · have hz : i - acc.length = 0 := by omega
      rw [hz] at he
      have hee : e = { original := flattenNL (trim b.originalText),
                       translated := flattenNL tt } := by
        simpa using he.symm
      have hpn : hasProperNoun (trim b.originalText) = true := by
        rcases hcond with hpn | ⟨hsmall, -⟩
        · exact hpn
        · omega
      exact ⟨b, hb, tt, htt, hpn, hee⟩
    · have hnone : ([{ original := flattenNL (trim b.originalText),
                       translated := flattenNL tt }] :
            List StyleExample)[i - acc.length]? = none := by
        apply List.getElem?_eq_none
        simp only [List.length_singleton]
        omega
      rw [hnone] at he
      exact absurd he (by simp)

theorem extractLoop_mem_after20 (L : List SrtBlock) :
    ∀ (bs : List SrtBlock) (acc : List StyleExample), (∀ b ∈ bs, b ∈ L) →
    (∀ i, 20 ≤ i → ∀ e, acc[i]? = some e → properNounSourced L e) →
    ∀ i, 20 ≤ i → ∀ e, (extractLoop bs acc)[i]? = some e →
      properNounSourced L e := by
  intro bs
  induction bs with
  | nil =>
    intro acc hsub hacc i h20 e he
    exact hacc i h20 e he
  | cons b bs' ih =>
    intro acc hsub hacc
    have hbL : b ∈ L := hsub b (List.mem_cons_self _ _)
    have hsub' : ∀ x ∈ bs', x ∈ L := fun x hx => hsub x (List.mem_cons_of_mem _ hx)
    cases htt : b.translatedText with
    | none =>
      simp only [extractLoop, htt]
      exact ih acc hsub' hacc
    | some tt =>
      simp only [extractLoop, htt]
      by_cases hemp : tt.isEmpty = true
      · rw [if_pos hemp]
        exact ih acc hsub' hacc
      · rw [if_neg hemp]
        by_cases hcond : hasProperNoun (trim b.originalText) = true ∨
            (acc.length < 20 ∧ 20 < (trim b.originalText).length)
        · rw [if_pos hcond]
          have hext := extractLoop_push_inv L b hbL tt htt acc hacc hcond
          by_cases h40 : 40 ≤ (acc ++
              [({ original := flattenNL (trim b.originalText),
                  translated := flattenNL tt } : StyleExample)]).length
          · rw [if_pos h40]
            exact hext
          · rw [if_neg h40]
            exact ih _ hsub' hext
        · rw [if_neg hcond]
          by_cases h40 : 40 ≤ acc.length
          · rw [if_pos h40]
            exact hacc
          · rw [if_neg h40]
            exact ih acc hsub' hacc

/-- C4: `ExtractStyleExamples` returns at most 40 examples, and every
example at position 20 or later comes from an aligned pair with a set
translation whose trimmed original text matches the proper-noun heuristic
(a lowercase letter, a space, then an uppercase letter) — the 20-item /
20-character rule admits examples only while fewer than 20 have been
collected. -/
theorem claim_C4_style_caps (A B : List Char) :
    (extractStyleExamples A B).length ≤ 40 ∧
    ∀ i, 20 ≤ i → ∀ e, (extractStyleExamples A B)[i]? = some e →
      properNounSourced (alignSrts A B) e := by
  constructor
  · exact extractLoop_length_le (alignSrts A B) [] (by simp)
  · exact extractLoop_mem_after20 (alignSrts A B) (alignSrts A B) []
      (fun b hb => hb) (fun i h20 e he => by simp at he)

/-- C5 (amended): `Serialize` emits the text portion as the block's
translatedText whenever it is present and non-empty, and as originalText
otherwise; in particular a block whose translatedText is the empty string
is serialized with originalText, not with the empty string — JavaScript's
`translatedText || originalText` treats the empty string as absent. -/
theorem claim_C5_serialize_text (b : SrtBlock) :
    (∀ t, b.translatedText = some t → t ≠ [] →
      stringifySRT [b] = intToChars b.id ++
        '\n' :: (b.startTime ++ arrowSep ++ b.endTime) ++ '\n' :: t) ∧
    ((b.translatedText = some [] ∨ b.translatedText = none) →
      stringifySRT [b] = intToChars b.id ++
        '\n' :: (b.startTime ++ arrowSep ++ b.endTime) ++
          '\n' :: b.originalText) := by
  constructor
  · intro t ht hne
    have hemp : t.isEmpty = false := by simpa [List.isEmpty_iff] using hne
    show renderBlock b = _
    unfold renderBlock jsOr
    rw [ht]
    simp [hemp]
  · rintro (ht | ht)
    · show renderBlock b = _
      unfold renderBlock jsOr
      rw [ht]
      rfl
    · show renderBlock b = _
      unfold renderBlock jsOr
      rw [ht]

/-- C5 counterexample: a block with originalText "hi" and translatedText
set to the empty string is serialized with "hi" as its text, not with the
empty string as the claim asserts. -/
theorem claim_C5_counterexample :
    stringifySRT [{ id := 1, startTime := ['a'], endTime := ['b'],
                    originalText := "hi".toList,
                    translatedText := some [] }] ≠ "1\na --> b\n".toList ∧
    stringifySRT [{ id := 1, startTime := ['a'], endTime := ['b'],
                    originalText := "hi".toList,
                    translatedText := some [] }] = "1\na --> b\nhi".toList := by
  decide

/-- Witness for C5 at a block whose translatedText is the empty string. -/
theorem claim_C5_serialize_text_witness :
    stringifySRT [{ id := 1, startTime := ['a'], endTime := ['b'],
                    originalText := "hi".toList,
                    translatedText := some [] }] =
      intToChars 1 ++ '\n' :: ((['a'] : List Char) ++ arrowSep ++ ['b']) ++
        '\n' :: "hi".toList :=
  (claim_C5_serialize_text
    { id := 1, startTime := ['a'], endTime := ['b'],
      originalText := "hi".toList, translatedText := some [] }).2 (Or.inl rfl)

/-- C6 (amended): a candidate block whose first line yields no integer
under `parseInt` — no digit after the optional whitespace and sign, e.g.
`abc` — is silently discarded by the per-block parser (and `parseSRT` is a
total `filterMap` of it, so nothing is emitted and no error is raised);
but a first line consisting of an integer followed by non-numeric
characters, such as `12abc`, DOES parse: `parseInt` takes the digit
prefix, so such a block is kept with the prefix as its id. -/
theorem claim_C6_drop_bad_id (blockStr : List Char)
    (h : jsParseInt ((splitLines (trim blockStr)).headD []) = none) :
    parseBlock blockStr = none := by
  simp only [parseBlock]
  rw [h]
  split
  · rfl
  · rfl

/-- C6 counterexample: the block whose first line is `12abc` — an integer
followed by non-numeric characters, the claim's own example — is NOT
discarded: `parseInt('12abc', 10)` is 12, so the block is emitted with
id 12. -/
theorem claim_C6_counterexample :
    parseSRT ("12abc\n0 --> 1\nx".toList) =
      [{ id := 12, startTime := ['0'], endTime := ['1'],
         originalText := ['x'] }] := by decide

/-- Witness for C6 at a block whose first line has no digit at all. -/
theorem claim_C6_drop_bad_id_witness :
    parseBlock ("abc\n0 --> 1\nx".toList) = none :=
  claim_C6_drop_bad_id ("abc\n0 --> 1\nx".toList) (by decide)

/-! ## Lemmas for the reference map -/

theorem refFoldRange (key value : Nat → List Char) (K : List Char) (j : Nat)
    (hkeyK : key j = K) (hkey : key j ≠ []) (hval : value j ≠ []) :
    ∀ count, j < count →
    (∀ l, l < count → j < l → ¬(key l = K ∧ key l ≠ [] ∧ value l ≠ [])) →
    ∀ m0 : List Char → Option (List Char),
      ((List.range count).foldl (fun m i =>
        if key i ≠ [] ∧ value i ≠ [] then
          (fun k => if k = key i then some (value i) else m k) else m) m0) K =
      some (value j) := by
  intro count
  induction count with
  | zero => intro h; omega
  | succ c ih =>
    intro hjc hlast m0
    rw [List.range_succ, List.foldl_append]
    simp only [List.foldl_cons, List.foldl_nil]
    by_cases hjeq : j = c
    · subst hjeq
      rw [if_pos ⟨hkey, hval⟩]
      show (if K = key j then some (value j) else _) = some (value j)
      rw [if_pos hkeyK.symm]
    · have hjc' : j < c := by omega
      have hnc := hlast c (by omega) (by omega)
      by_cases hc : key c ≠ [] ∧ value c ≠ []
      · rw [if_pos hc]
        show (if K = key c then some (value c) else
          ((List.range c).foldl (fun m i =>
            if key i ≠ [] ∧ value i ≠ [] then
              (fun k => if k = key i then some (value i) else m k) else m) m0) K) =
          some (value j)
        rw [if_neg (fun he => hnc ⟨he.symm, hc⟩)]
        exact ih hjc' (fun l hl1 hl2 => hlast l (by omega) hl2) m0
      · rw [if_neg hc]
        exact ih hjc' (fun l hl1 hl2 => hlast l (by omega) hl2) m0

/-- C7: if the same trimmed original text occurs at several positions of
track A with non-empty trimmed translations at the corresponding positions
of track B, `BuildExactMap` maps that text to the translation of the last
such occurrence processed — last writer wins. -/
theorem claim_C7_last_writer_wins (A B : List Char) (j : Nat)
    (hj : j < min (parseSRT A).length (parseSRT B).length)
    (hkey : trim ((parseSRT A).getD j default).originalText ≠ [])
    (hval : trim ((parseSRT B).getD j default).originalText ≠ [])
    (hlast : ∀ l, l < min (parseSRT A).length (parseSRT B).length → j < l →
      ¬(trim ((parseSRT A).getD l default).originalText =
          trim ((parseSRT A).getD j default).originalText ∧
        trim ((parseSRT A).getD l default).originalText ≠ [] ∧
        trim ((parseSRT B).getD l default).originalText ≠ [])) :
    createReferenceMap A B (trim ((parseSRT A).getD j default).originalText) =
      some (trim ((parseSRT B).getD j default).originalText) :=
  refFoldRange
    (fun i => trim ((parseSRT A).getD i default).originalText)
    (fun i => trim ((parseSRT B).getD i default).originalText)
    (trim ((parseSRT A).getD j default).originalText)
    j rfl hkey hval
    (min (parseSRT A).length (parseSRT B).length) hj hlast
    (fun _ => none)

/-- Witness for C7: the key "key" occurs at both positions of A, with
translations "v1" and "v2" in B; the map holds "v2", the last one. -/
theorem claim_C7_last_writer_wins_witness :
    createReferenceMap ("1\na --> b\nkey\n\n2\nc --> d\nkey".toList)
        ("1\na --> b\nv1\n\n2\nc --> d\nv2".toList)
        (trim ((parseSRT ("1\na --> b\nkey\n\n2\nc --> d\nkey".toList)).getD 1
          default).originalText) =
      some (trim ((parseSRT ("1\na --> b\nv1\n\n2\nc --> d\nv2".toList)).getD 1
        default).originalText) :=
  claim_C7_last_writer_wins
    ("1\na --> b\nkey\n\n2\nc --> d\nkey".toList)
    ("1\na --> b\nv1\n\n2\nc --> d\nv2".toList)
    1 (by decide) (by decide) (by decide) (by decide)

/-! ## Lemmas for the parser invariant -/

theorem splitLines_getLast_ne_nil (s : List Char) (hne : s ≠ [])
    (hlast : s.getLast? ≠ some '\n') :
    ∀ l, (splitLines s).getLast? = some l → l ≠ [] := by
  induction s with
  | nil => exact absurd rfl hne
  | cons c s' ih =>
    intro l hl
    cases hs' : s' with
    | nil =>
      subst hs'
      have hc : c ≠ '\n' := fun e => hlast (by simp [e])
      simp only [splitLines, if_neg hc, consHead] at hl
      simp only [List.getLast?_singleton, Option.some.injEq] at hl
      rw [← hl]
      simp
    | cons d s'' =>
      subst hs'
      have hlast' : (d :: s'').getLast? ≠ some '\n' := by
        rw [List.getLast?_cons_cons] at hlast
        exact hlast
      have hne' : (d :: s'') ≠ [] := by simp
      by_cases hc : c = '\n'
      · subst hc
        have hstep : splitLines ('\n' :: d :: s'') = [] :: splitLines (d :: s'') := by
          rw [splitLines]
          rw [if_pos rfl]
        rw [hstep] at hl
        rw [show (([] : List Char) :: splitLines (d :: s'')) =
            [([] : List Char)] ++ splitLines (d :: s'') from rfl] at hl
        rw [List.getLast?_append_of_ne_nil _ (splitLines_ne_nil _)] at hl
        exact ih hne' hlast' l hl
      · have hstep : splitLines (c :: d :: s'') = consHead c (splitLines (d :: s'')) := by
          rw [splitLines]
          rw [if_neg hc]
        rw [hstep] at hl
        cases hsl : splitLines (d :: s'') with
        | nil => exact absurd hsl (splitLines_ne_nil _)
        | cons p ps =>
          rw [hsl] at hl
          cases hps : ps with
          | nil =>
            subst hps
            simp only [consHead, List.getLast?_singleton, Option.some.injEq] at hl
            rw [← hl]
            simp
          | cons q qs =>
            subst hps
            simp only [consHead] at hl
            rw [List.getLast?_cons_cons] at hl
            apply ih hne' hlast' l
            rw [hsl, List.getLast?_cons_cons]
            exact hl

theorem parseBlock_text_ne_nil (block : List Char) (b : SrtBlock)
    (h : parseBlock block = some b) : b.originalText ≠ [] := by
  simp only [parseBlock] at h
  split at h
  · exact absurd h (by simp)
  · rename_i hlen
    split at h
    · exact absurd h (by simp)
    · rename_i i hpi
      split at h
      · exact absurd h (by simp)
      · rename_i hparts
        have hb : b.originalText = joinNL ((splitLines (trim block)).drop 2) := by
          have hinj := Option.some.inj h
          rw [← hinj]
        rw [hb]
        have h3 : 3 ≤ (splitLines (trim block)).length := by omega
        have htne : trim block ≠ [] := by
          intro he
          rw [he] at h3
          simp [splitLines] at h3
        have hlast' : (trim block).getLast? ≠ some '\n' := by
          intro he
          have := trim_getLast_not_ws block '\n' he
          simp [isWS] at this
        cases hsl : splitLines (trim block) with
        | nil => exact absurd hsl (splitLines_ne_nil _)
        | cons l0 ls =>
          cases hls : ls with
          | nil =>
            rw [hsl, hls] at h3
            simp at h3
          | cons l1 ls2 =>
            cases hls2 : ls2 with
            | nil =>
              rw [hsl, hls, hls2] at h3
              simp at h3
            | cons l2 ls3 =>
              simp only [List.drop_succ_cons, List.drop_zero]
              cases hls3 : ls3 with
              | nil =>
                have hlast2 : (splitLines (trim block)).getLast? = some l2 := by
                  rw [hsl, hls, hls2, hls3]
                  rw [List.getLast?_cons_cons, List.getLast?_cons_cons,
                    List.getLast?_singleton]
                have hl2 := splitLines_getLast_ne_nil (trim block) htne hlast' l2 hlast2
                simpa [joinNL] using hl2
              | cons l3 ls4 =>
                simp [joinNL]

/-- C9: every block returned by `Parse` has non-empty originalText, and
`Parse` never raises an error — it is a total function and empty content
yields the empty sequence. -/
theorem claim_C9_nonempty_text :
    (∀ (content : List Char) (b : SrtBlock), b ∈ parseSRT content →
      b.originalText ≠ []) ∧
    parseSRT ([] : List Char) = [] := by
  constructor
  · intro content b hb
    unfold parseSRT at hb
    obtain ⟨block, hblock, hpb⟩ := List.mem_filterMap.mp hb
    exact parseBlock_text_ne_nil block b hpb
  · decide

/-- Witness for C9 at a concrete parsed block. -/
theorem claim_C9_nonempty_text_witness :
    ({ id := 1, startTime := ['a'], endTime := ['b'],
       originalText := ['x'] } : SrtBlock).originalText ≠ [] :=
  claim_C9_nonempty_text.1 ("1\na --> b\nx".toList)
    { id := 1, startTime := ['a'], endTime := ['b'], originalText := ['x'] }
    (by decide)

/-! ## Lemmas for the training-example sampler -/

theorem sampleInner_inv (limit : Nat) :
    ∀ (bs : List SrtBlock) (acc : List StyleExample), acc.length < limit →
      (sampleInner limit bs acc).1.length ≤ limit ∧
      ((sampleInner limit bs acc).2 = false →
        (sampleInner limit bs acc).1.length < limit) := by
  intro bs
  induction bs with
  | nil =>
    intro acc hacc
    exact ⟨le_of_lt hacc, fun _ => hacc⟩
  | cons b bs' ih =>
    intro acc hacc
    simp only [sampleInner]
    by_cases hl : limit ≤ (acc ++ [trainingExampleOf b]).length
    · rw [if_pos hl]
      constructor
      · show (acc ++ [trainingExampleOf b]).length ≤ limit
        simp only [List.length_append, List.length_singleton]
        omega
      · intro hfalse
        simp at hfalse
    · rw [if_neg hl]
      apply ih
      simp only [List.length_append, List.length_singleton] at hl ⊢
      omega

theorem sampleLoop_le (limit : Nat) :
    ∀ (ps : List TranslationProject) (acc : List StyleExample),
      acc.length < limit → (sampleLoop limit ps acc).length ≤ limit := by
  intro ps
  induction ps with
  | nil =>
    intro acc hacc
    exact le_of_lt hacc
  | cons p ps' ih =>
    intro acc hacc
    have hinv := sampleInner_inv limit ((p.blocks.filter validBlock).take 10) acc hacc
    simp only [sampleLoop]
    rcases hsi : sampleInner limit ((p.blocks.filter validBlock).take 10) acc with
      ⟨acc2, flag⟩
    rw [hsi] at hinv
    cases flag with
    | true => exact hinv.1
    | false => exact ih acc2 (hinv.2 rfl)

theorem sampleInner_mem (limit : Nat) :
    ∀ (bs : List SrtBlock) (acc : List StyleExample) (e : StyleExample),
      e ∈ (sampleInner limit bs acc).1 →
      e ∈ acc ∨ ∃ b ∈ bs, e = trainingExampleOf b := by
  intro bs
  induction bs with
  | nil =>
    intro acc e he
    exact Or.inl he
  | cons b bs' ih =>
    intro acc e he
    simp only [sampleInner] at he
    by_cases hl : limit ≤ (acc ++ [trainingExampleOf b]).length
    · rw [if_pos hl] at he
      rcases List.mem_append.mp he with h1 | h2
      · exact Or.inl h1
      · exact Or.inr ⟨b, List.mem_cons_self _ _, by simpa using h2⟩
    · rw [if_neg hl] at he
      rcases ih (acc ++ [trainingExampleOf b]) e he with h1 | ⟨b', hb', he'⟩
      · rcases List.mem_append.mp h1 with h1a | h1b
        · exact Or.inl h1a
        · exact Or.inr ⟨b, List.mem_cons_self _ _, by simpa using h1b⟩
      · exact Or.inr ⟨b', List.mem_cons_of_mem _ hb', he'⟩

theorem sampleLoop_mem (limit : Nat) :
    ∀ (ps : List TranslationProject) (acc : List StyleExample) (e : StyleExample),
      e ∈ sampleLoop limit ps acc →
      e ∈ acc ∨ ∃ p ∈ ps, ∃ b ∈ (p.blocks.filter validBlock).take 10,
        e = trainingExampleOf b := by
  intro ps
  induction ps with
  | nil =>
    intro acc e he
    exact Or.inl he
  | cons p ps' ih =>
    intro acc e he
    simp only [sampleLoop] at he
    rcases hsi : sampleInner limit ((p.blocks.filter validBlock).take 10) acc with
      ⟨acc2, flag⟩
    rw [hsi] at he
    cases flag with
    | true =>
      have hmem := sampleInner_mem limit ((p.blocks.filter validBlock).take 10)
        acc e (by rw [hsi]; exact he)
      rcases hmem with h1 | ⟨b, hb, he'⟩
      · exact Or.inl h1
      · exact Or.inr ⟨p, List.mem_cons_self _ _, b, hb, he'⟩
    | false =>
      rcases ih acc2 e he with h1 | ⟨p', hp', b, hb, he'⟩
      · have hmem := sampleInner_mem limit ((p.blocks.filter validBlock).take 10)
          acc e (by rw [hsi]; exact h1)
        rcases hmem with h2 | ⟨b, hb, he'⟩
        · exact Or.inl h2
        · exact Or.inr ⟨p, List.mem_cons_self _ _, b, hb, he'⟩
      · exact Or.inr ⟨p', List.mem_cons_of_mem _ hp', b, hb, he'⟩

/-- C8 (amended): for every project history and every POSITIVE limit the
sampler returns at most `limit` examples; every returned example comes
from the first 10 valid blocks of some qualifying project; and in the
concrete scenario — limit 5 over three qualifying projects of 10 valid
blocks each — it returns exactly the first 5 examples of the newest
project, in original order. -/
theorem claim_C8_sampler :
    (∀ (ps : List TranslationProject) (limit : Nat), 1 ≤ limit →
      (getTrainingExamples ps limit).length ≤ limit) ∧
    (∀ (ps : List TranslationProject) (limit : Nat) (e : StyleExample),
      e ∈ getTrainingExamples ps limit →
      ∃ p ∈ (sortNewest ps).filter projectQualifies,
        ∃ b ∈ (p.blocks.filter validBlock).take 10, e = trainingExampleOf b) ∧
    getTrainingExamples
        [scenarioProject 20, scenarioProject 30, scenarioProject 10] 5 =
      ((scenarioProject 30).blocks.take 5).map trainingExampleOf := by
  refine ⟨?_, ?_, ?_⟩
  · intro ps limit h1
    exact sampleLoop_le limit _ [] (by simp only [List.length_nil]; omega)
  · intro ps limit e he
    rcases sampleLoop_mem limit _ [] e he with h1 | h2
    · simp at h1
    · exact h2
  · decide

/-- C8 counterexample: with limit 0 and one qualifying project with a
valid block, the sampler pushes one example and only then checks the
limit, so it returns 1 example — more than the limit. -/
theorem claim_C8_counterexample :
    (getTrainingExamples [scenarioProject 10] 0).length = 1 ∧
    ¬((getTrainingExamples [scenarioProject 10] 0).length ≤ 0) := by decide

/-- Witness for C8's bound at a concrete history and limit 3. -/
theorem claim_C8_sampler_witness :
    (getTrainingExamples [scenarioProject 10] 3).length ≤ 3 :=
  claim_C8_sampler.1 [scenarioProject 10] 3 (by decide)

/-- Witness for C4: on a 21-block pair whose originals all match the
proper-noun heuristic, the example at position 20 (the 21st) is
proper-noun sourced. -/
theorem claim_C4_style_caps_witness :
    properNounSourced
      (alignSrts ("1\n0 --> 1\nx Y\n\n2\n0 --> 1\nx Y\n\n3\n0 --> 1\nx Y\n\n4\n0 --> 1\nx Y\n\n5\n0 --> 1\nx Y\n\n6\n0 --> 1\nx Y\n\n7\n0 --> 1\nx Y\n\n8\n0 --> 1\nx Y\n\n9\n0 --> 1\nx Y\n\n10\n0 --> 1\nx Y\n\n11\n0 --> 1\nx Y\n\n12\n0 --> 1\nx Y\n\n13\n0 --> 1\nx Y\n\n14\n0 --> 1\nx Y\n\n15\n0 --> 1\nx Y\n\n16\n0 --> 1\nx Y\n\n17\n0 --> 1\nx Y\n\n18\n0 --> 1\nx Y\n\n19\n0 --> 1\nx Y\n\n20\n0 --> 1\nx Y\n\n21\n0 --> 1\nx Y".toList) ("1\n0 --> 1\nt1\n\n2\n0 --> 1\nt2\n\n3\n0 --> 1\nt3\n\n4\n0 --> 1\nt4\n\n5\n0 --> 1\nt5\n\n6\n0 --> 1\nt6\n\n7\n0 --> 1\nt7\n\n8\n0 --> 1\nt8\n\n9\n0 --> 1\nt9\n\n10\n0 --> 1\nt10\n\n11\n0 --> 1\nt11\n\n12\n0 --> 1\nt12\n\n13\n0 --> 1\nt13\n\n14\n0 --> 1\nt14\n\n15\n0 --> 1\nt15\n\n16\n0 --> 1\nt16\n\n17\n0 --> 1\nt17\n\n18\n0 --> 1\nt18\n\n19\n0 --> 1\nt19\n\n20\n0 --> 1\nt20\n\n21\n0 --> 1\nt21".toList))
      { original := "x Y".toList, translated := "t21".toList } :=
  (claim_C4_style_caps ("1\n0 --> 1\nx Y\n\n2\n0 --> 1\nx Y\n\n3\n0 --> 1\nx Y\n\n4\n0 --> 1\nx Y\n\n5\n0 --> 1\nx Y\n\n6\n0 --> 1\nx Y\n\n7\n0 --> 1\nx Y\n\n8\n0 --> 1\nx Y\n\n9\n0 --> 1\nx Y\n\n10\n0 --> 1\nx Y\n\n11\n0 --> 1\nx Y\n\n12\n0 --> 1\nx Y\n\n13\n0 --> 1\nx Y\n\n14\n0 --> 1\nx Y\n\n15\n0 --> 1\nx Y\n\n16\n0 --> 1\nx Y\n\n17\n0 --> 1\nx Y\n\n18\n0 --> 1\nx Y\n\n19\n0 --> 1\nx Y\n\n20\n0 --> 1\nx Y\n\n21\n0 --> 1\nx Y".toList) ("1\n0 --> 1\nt1\n\n2\n0 --> 1\nt2\n\n3\n0 --> 1\nt3\n\n4\n0 --> 1\nt4\n\n5\n0 --> 1\nt5\n\n6\n0 --> 1\nt6\n\n7\n0 --> 1\nt7\n\n8\n0 --> 1\nt8\n\n9\n0 --> 1\nt9\n\n10\n0 --> 1\nt10\n\n11\n0 --> 1\nt11\n\n12\n0 --> 1\nt12\n\n13\n0 --> 1\nt13\n\n14\n0 --> 1\nt14\n\n15\n0 --> 1\nt15\n\n16\n0 --> 1\nt16\n\n17\n0 --> 1\nt17\n\n18\n0 --> 1\nt18\n\n19\n0 --> 1\nt19\n\n20\n0 --> 1\nt20\n\n21\n0 --> 1\nt21".toList)).2 20 (by decide)
    { original := "x Y".toList, translated := "t21".toList } (by decide)

/-- Witness for C3 on one-block tracks with ids 5 and 7 (offset 2) and
differing startTimes: no pair survives. -/
theorem claim_C3_fallback_safety_witness :
    (alignSrts ("5\n00:00:01,000 --> 00:00:02,000\nHello".toList)
        ("7\n00:00:09,500 --> 00:00:10,500\nX".toList)).length <
      (parseSRT ("5\n00:00:01,000 --> 00:00:02,000\nHello".toList)).length :=
  claim_C3_fallback_safety
    ("5\n00:00:01,000 --> 00:00:02,000\nHello".toList)
    ("7\n00:00:09,500 --> 00:00:10,500\nX".toList)
    2 (by decide) (by decide) (by decide) (by decide)

end Srt
